import Mathlib

/-!
Verification of the slide-puzzle state-space search engine (`ucs.py`).

The Python source is shallowly embedded: `GameState`/`Game` become
structures over lists, the slide-until-stop loop and the three search
loops become fuel-indexed recursive functions, and the `heapq` priority
queue used by uniform-cost search is reproduced down to CPython's
`_siftup`/`_siftdown` algorithms.
-/

/-- Mirror of class `GameState`: wall cells, per-player goal positions,
per-player current positions, per-player reached flags. Positions are
`(row, col)` pairs of integers. -/
structure GameState where
  walls : List (Int × Int)
  goals : List (Int × Int)
  players : List (Int × Int)
  reached_goal : List Bool
deriving DecidableEq, Repr

instance : Inhabited GameState := ⟨⟨[], [], [], []⟩⟩

/-- Mirror of class `Game`: grid bounds plus the stored state `self.state`. -/
structure Game where
  rows : Int
  cols : Int
  state : GameState
deriving DecidableEq, Repr

/-- The `board_details` dictionary consumed by `Game.__init__`. -/
structure BoardDetails where
  walls : List (Int × Int)
  goals : List (Int × Int)
  players : List (Int × Int)
deriving DecidableEq, Repr

/-- Mirror of `Game.__init__`: copies the board data and sets every
reached flag to `False` (`[False] * len(players)`). -/
def Game.init (rows cols : Int) (bd : BoardDetails) : Game :=
  { rows := rows, cols := cols,
    state := { walls := bd.walls, goals := bd.goals, players := bd.players,
               reached_goal := List.replicate bd.players.length false } }

/-- Mirror of `Game.is_valid_move`. Note that every check reads
`self.state` — the game's stored state — not any state passed to
`simulate_move`: bounds, walls, occupancy by another player, and the
finished-player lock all consult `g.state`. -/
def is_valid_move (g : Game) (row col : Int) (player_i : Nat) : Bool :=
  if row < 0 ∨ row ≥ g.rows ∨ col < 0 ∨ col ≥ g.cols then false
  else if (row, col) ∈ g.state.walls then false
  else if g.state.players.enum.any (fun jp => decide (jp.1 ≠ player_i ∧ jp.2 = (row, col))) then
    false
  else if g.state.reached_goal.getD player_i false ∧
      (row, col) ≠ g.state.goals.getD player_i (0, 0) then false
  else true

/-- Fuel that strictly dominates the number of in-bounds cells a cardinal
slide can traverse. -/
def slideFuel (g : Game) : Nat := (g.rows + g.cols).toNat + 2

/-- The `while True` slide loop of `simulate_move` for one player:
step to `(r + dr, c + dc)` while `is_valid_move` holds; stop the moment
the current cell equals the player's goal, reporting the final position
and whether the goal was hit. -/
def slideAux (g : Game) (i : Nat) (dr dc : Int) (goal : Int × Int) :
    Nat → (Int × Int) → (Int × Int) × Bool
  | 0, pos => (pos, false)
  | fuel + 1, pos =>
    let next := (pos.1 + dr, pos.2 + dc)
    if ¬ is_valid_move g next.1 next.2 i then (pos, false)
    else if next = goal then (next, true)
    else slideAux g i dr dc goal fuel next

/-- One iteration of `simulate_move`'s player loop: returns the updated
working copy together with the snapshot appended to `new_states`
(if the player moved). -/
def simStep (g : Game) (dr dc : Int) (cloned : GameState) (i : Nat) :
    GameState × Option GameState :=
  if cloned.reached_goal.getD i false then (cloned, none)
  else
    let p := cloned.players.getD i (0, 0)
    let res := slideAux g i dr dc (cloned.goals.getD i (0, 0)) (slideFuel g) p
    let cloned1 := if res.2 then
        { cloned with reached_goal := cloned.reached_goal.set i true } else cloned
    if res.1 ≠ p then
      let cloned2 := { cloned1 with players := cloned1.players.set i res.1 }
      (cloned2, some cloned2)
    else (cloned1, none)

/-- The working copy after the flag update of one `simStep`. -/
def stepFlagged (g : Game) (dr dc : Int) (cloned : GameState) (i : Nat) : GameState :=
  if (slideAux g i dr dc (cloned.goals.getD i (0, 0)) (slideFuel g)
      (cloned.players.getD i (0, 0))).2 then
    { cloned with reached_goal := cloned.reached_goal.set i true }
  else cloned

/-- The working copy after the flag and position updates of one
`simStep` in which the player moved. -/
def stepMoved (g : Game) (dr dc : Int) (cloned : GameState) (i : Nat) : GameState :=
  { stepFlagged g dr dc cloned i with
    players := (stepFlagged g dr dc cloned i).players.set i
      (slideAux g i dr dc (cloned.goals.getD i (0, 0)) (slideFuel g)
        (cloned.players.getD i (0, 0))).1 }

/-- The player loop of `simulate_move`: processes players `i, i+1, ...`
on the shared working copy, collecting the emitted snapshots in order. -/
def simGo (g : Game) (dr dc : Int) : Nat → Nat → GameState → List GameState
  | 0, _, _ => []
  | fuel + 1, i, cloned =>
    if i < cloned.players.length then
      match simStep g dr dc cloned i with
      | (c', some s) => s :: simGo g dr dc fuel (i + 1) c'
      | (c', none) => simGo g dr dc fuel (i + 1) c'
    else []

/-- Mirror of `Game.simulate_move`: deep-copy the input state, then run
the player loop over the shared working copy. -/
def simulate_move (g : Game) (st : GameState) (dr dc : Int) : List GameState :=
  simGo g dr dc st.players.length 0 st

/-- The four direction deltas tried by every search loop, in source
order: up, down, left, right. -/
def dirList : List (Int × Int) := [(-1, 0), (1, 0), (0, -1), (0, 1)]

/-- All successors generated while expanding one state: the four
`simulate_move` calls concatenated in direction order. -/
def expandDirs (g : Game) (st : GameState) : List GameState :=
  dirList.flatMap fun d => simulate_move g st d.1 d.2

/-- Canonical key of a state, mirror of `Game.get_state`:
(tuple of positions, tuple of reached flags). -/
def get_state (st : GameState) : List (Int × Int) × List Bool :=
  (st.players, st.reached_goal)

/-- Type of canonical keys. -/
abbrev KeyT := List (Int × Int) × List Bool

/-- Result triple of a search: optional solution path, pop counter
`nodes_visited`, and the trace of every popped state. -/
abbrev SearchResult := Option (List GameState) × Nat × List GameState

/-- CPython `heapq._siftdown(heap, startpos, pos)`: walk `newitem` up
from `pos` toward `startpos`, moving parents down, and place `newitem`
at its final slot. The fuel dominates `pos`, which strictly decreases. -/
def siftdownAux {α : Type} [Inhabited α] (lt : α → α → Bool) (newitem : α) :
    Nat → List α → Nat → Nat → List α
  | 0, heap, _, pos => heap.set pos newitem
  | fuel + 1, heap, startpos, pos =>
    if startpos < pos then
      let parentpos := (pos - 1) / 2
      let parent := heap.getD parentpos default
      if lt newitem parent then
        siftdownAux lt newitem fuel (heap.set pos parent) startpos parentpos
      else heap.set pos newitem
    else heap.set pos newitem

/-- CPython `heapq._siftup(heap, pos)` main loop: bubble the smaller
child up into the hole at `pos`, walking the hole down to a leaf;
returns the updated heap and the leaf position of the hole. -/
def siftupAux {α : Type} [Inhabited α] (lt : α → α → Bool) :
    Nat → List α → Nat → List α × Nat
  | 0, heap, pos => (heap, pos)
  | fuel + 1, heap, pos =>
    let endpos := heap.length
    let childpos := 2 * pos + 1
    if childpos < endpos then
      let rightpos := childpos + 1
      let cp := if rightpos < endpos ∧
          lt (heap.getD childpos default) (heap.getD rightpos default) = false then
        rightpos else childpos
      siftupAux lt fuel (heap.set pos (heap.getD cp default)) cp
    else (heap, pos)

/-- CPython `heapq._siftup`: walk the hole to a leaf, then sift the
item that was at `pos` back down toward `pos`. -/
def siftup {α : Type} [Inhabited α] (lt : α → α → Bool) (heap : List α)
    (pos : Nat) : List α :=
  let newitem := heap.getD pos default
  let hp := siftupAux lt heap.length heap pos
  siftdownAux lt newitem (hp.2 + 1) hp.1 pos hp.2

/-- CPython `heapq.heappush`: append, then sift the new last element up. -/
def heappush {α : Type} [Inhabited α] (lt : α → α → Bool) (heap : List α)
    (item : α) : List α :=
  siftdownAux lt item (heap.length + 1) (heap ++ [item]) 0 heap.length

/-- CPython `heapq.heappop`: remove the last element; if the heap is
still nonempty, overwrite the root with it and sift up, returning the
old root. Returns `none` on an empty heap. -/
def heappop {α : Type} [Inhabited α] (lt : α → α → Bool) (heap : List α) :
    Option (α × List α) :=
  if heap.isEmpty then none
  else
    let lastelt := heap.getLastD default
    let rest := heap.dropLast
    if rest.isEmpty then some (lastelt, [])
    else some (rest.getD 0 default, siftup lt (rest.set 0 lastelt) 0)

/-- `reached_goal.count(True)` from `GameState.__lt__`. -/
def countTrue (l : List Bool) : Nat := l.count true

/-- An entry of the uniform-cost frontier: `(cost, state, path)`. -/
abbrev UEntry := Nat × GameState × List GameState

/-- The effective order on `(cost, state, path)` triples under Python's
tuple comparison: compare costs first; on a tie, `GameState.__lt__`
compares the number of `True` reached flags. The path component is
never reached because distinct frontier entries hold distinct state
objects. -/
def entryLt (e1 e2 : UEntry) : Bool :=
  decide (e1.1 < e2.1) ||
    (decide (e1.1 = e2.1) &&
      decide (countTrue e1.2.1.reached_goal < countTrue e2.2.1.reached_goal))

/-- The `while stack:` loop of `Game.dfs`, fuel-indexed. The list head
is the top of the Python stack. `none` means the fuel ran out. -/
def dfsLoop (g : Game) :
    Nat → List (GameState × List GameState) → List KeyT → Nat →
      List GameState → Option SearchResult
  | 0, _, _, _, _ => none
  | _ + 1, [], _, nv, trace => some (none, nv, trace)
  | fuel + 1, (st, path) :: rest, visited, nv, trace =>
    if st.reached_goal.all id then some (some (path ++ [st]), nv + 1, trace ++ [st])
    else if get_state st ∈ visited then dfsLoop g fuel rest visited (nv + 1) (trace ++ [st])
    else
      dfsLoop g fuel
        (((expandDirs g st).map fun s => (s, path ++ [st])).reverse ++ rest)
        (get_state st :: visited) (nv + 1) (trace ++ [st])

/-- The `while queue:` loop of `Game.bfs`, fuel-indexed. The list head
is the front of the deque; pushes go to the back. -/
def bfsLoop (g : Game) :
    Nat → List (GameState × List GameState) → List KeyT → Nat →
      List GameState → Option SearchResult
  | 0, _, _, _, _ => none
  | _ + 1, [], _, nv, trace => some (none, nv, trace)
  | fuel + 1, (st, path) :: rest, visited, nv, trace =>
    if st.reached_goal.all id then some (some (path ++ [st]), nv + 1, trace ++ [st])
    else if get_state st ∈ visited then bfsLoop g fuel rest visited (nv + 1) (trace ++ [st])
    else
      bfsLoop g fuel
        (rest ++ ((expandDirs g st).map fun s => (s, path ++ [st])))
        (get_state st :: visited) (nv + 1) (trace ++ [st])

/-- The push phase of one `Game.ucs` iteration: for each successor, in
direction order, push `(cost+1, successor, path+[state])` unless its
canonical key is already in the visited set. -/
def ucsPushes (g : Game) (st : GameState) (path : List GameState)
    (cost : Nat) (visited : List KeyT) (rest : List UEntry) : List UEntry :=
  (expandDirs g st).foldl
    (fun h s => if get_state s ∈ visited then h
      else heappush entryLt h (cost + 1, s, path ++ [st])) rest

/-- The `while priority_queue:` loop of `Game.ucs`, fuel-indexed. -/
def ucsLoop (g : Game) :
    Nat → List UEntry → List KeyT → Nat → List GameState → Option SearchResult
  | 0, _, _, _, _ => none
  | fuel + 1, pq, visited, nv, trace =>
    match heappop entryLt pq with
    | none => some (none, nv, trace)
    | some ((cost, st, path), rest) =>
      if st.reached_goal.all id then some (some (path ++ [st]), nv + 1, trace ++ [st])
      else if get_state st ∈ visited then ucsLoop g fuel rest visited (nv + 1) (trace ++ [st])
      else
        ucsLoop g fuel
          (ucsPushes g st path cost (get_state st :: visited) rest)
          (get_state st :: visited) (nv + 1) (trace ++ [st])

/-- Finite universe of positions any reachable state can mention: the
in-bounds cells plus the initial player positions. -/
def posU (g : Game) : Finset (Int × Int) :=
  (Finset.Icc 0 (g.rows - 1)) ×ˢ (Finset.Icc 0 (g.cols - 1)) ∪
    g.state.players.toFinset

/-- Number of canonical keys any run of the search can ever insert into
its visited set. -/
def keyBound (g : Game) : Nat :=
  (posU g).card ^ g.state.players.length * 2 ^ g.state.reached_goal.length

/-- One more than the number of frontier entries a single expansion can
push (at most one successor per player per direction). -/
def pushCap (g : Game) : Nat := 4 * g.state.players.length + 1

/-- Fuel that provably dominates the number of iterations of each
search loop. -/
def searchFuel (g : Game) : Nat := keyBound g * pushCap g + 2

/-- Mirror of `Game.dfs`: run the stack loop from a copy of the stored
state with empty bookkeeping. -/
def dfs (g : Game) : Option SearchResult :=
  dfsLoop g (searchFuel g) [(g.state, [])] [] 0 []

/-- Mirror of `Game.bfs`. -/
def bfs (g : Game) : Option SearchResult :=
  bfsLoop g (searchFuel g) [(g.state, [])] [] 0 []

/-- Mirror of `Game.ucs`. -/
def ucs (g : Game) : Option SearchResult :=
  ucsLoop g (searchFuel g) [(0, g.state, [])] [] 0 []

/-- Modelled from the spec: `is_valid_cell(state, row, col, player_i)`
of section 4.1, where the occupancy, wall and finished-player checks
consult the *working copy* `ws` rather than the game's stored state.
This definition exists only to compare the spec's sequencing rule 5 of
section 4.2 with the code. -/
def is_valid_cell_spec (g : Game) (ws : GameState) (row col : Int)
    (player_i : Nat) : Bool :=
  if row < 0 ∨ row ≥ g.rows ∨ col < 0 ∨ col ≥ g.cols then false
  else if (row, col) ∈ ws.walls then false
  else if ws.players.enum.any (fun jp => decide (jp.1 ≠ player_i ∧ jp.2 = (row, col))) then
    false
  else if ws.reached_goal.getD player_i false ∧
      (row, col) ≠ ws.goals.getD player_i (0, 0) then false
  else true

/-- Modelled from the spec: the slide loop of section 4.2 step 3 with
validity judged against the working copy `ws`. -/
def slideSpecAux (g : Game) (ws : GameState) (i : Nat) (dr dc : Int)
    (goal : Int × Int) : Nat → (Int × Int) → (Int × Int) × Bool
  | 0, pos => (pos, false)
  | fuel + 1, pos =>
    let next := (pos.1 + dr, pos.2 + dc)
    if ¬ is_valid_cell_spec g ws next.1 next.2 i then (pos, false)
    else if next = goal then (next, true)
    else slideSpecAux g ws i dr dc goal fuel next

/-- Modelled from the spec: one player iteration of section 4.2 where
the validity checks see the current working copy. -/
def simStepSpec (g : Game) (dr dc : Int) (cloned : GameState) (i : Nat) :
    GameState × Option GameState :=
  if cloned.reached_goal.getD i false then (cloned, none)
  else
    let p := cloned.players.getD i (0, 0)
    let res := slideSpecAux g cloned i dr dc (cloned.goals.getD i (0, 0)) (slideFuel g) p
    let cloned1 := if res.2 then
        { cloned with reached_goal := cloned.reached_goal.set i true } else cloned
    if res.1 ≠ p then
      let cloned2 := { cloned1 with players := cloned1.players.set i res.1 }
      (cloned2, some cloned2)
    else (cloned1, none)

/-- Modelled from the spec: the player loop of section 4.2 with
working-copy validity. -/
def simGoSpec (g : Game) (dr dc : Int) : Nat → Nat → GameState → List GameState
  | 0, _, _ => []
  | fuel + 1, i, cloned =>
    if i < cloned.players.length then
      match simStepSpec g dr dc cloned i with
      | (c', some s) => s :: simGoSpec g dr dc fuel (i + 1) c'
      | (c', none) => simGoSpec g dr dc fuel (i + 1) c'
    else []

/-- Modelled from the spec: the Move Simulator of section 4.2 with rule
5 read literally — earlier players' applied moves are visible to later
players' validity checks through the shared working copy. -/
def simulate_move_specC1 (g : Game) (st : GameState) (dr dc : Int) : List GameState :=
  simGoSpec g dr dc st.players.length 0 st

/-- The slide outcome of player `i`, computed from the *input* state
only: final position and goal flag. Used to characterise
`simulate_move`. -/
def playerOutcome (g : Game) (st : GameState) (dr dc : Int) (i : Nat) :
    (Int × Int) × Bool :=
  slideAux g i dr dc (st.goals.getD i (0, 0)) (slideFuel g) (st.players.getD i (0, 0))

/-- Transparent reformulation of `simulate_move`: each player's slide
outcome depends only on the game's stored state and the player's
position in the *input* state, while the emitted snapshots accumulate
all earlier players' already-applied moves. -/
def cumGo (g : Game) (st : GameState) (dr dc : Int) :
    Nat → Nat → GameState → List GameState
  | 0, _, _ => []
  | fuel + 1, i, acc =>
    if i < acc.players.length then
      if st.reached_goal.getD i false then cumGo g st dr dc fuel (i + 1) acc
      else
        let out := playerOutcome g st dr dc i
        let acc1 := if out.2 then
            { acc with reached_goal := acc.reached_goal.set i true } else acc
        if out.1 ≠ st.players.getD i (0, 0) then
          let acc2 := { acc1 with players := acc1.players.set i out.1 }
          acc2 :: cumGo g st dr dc fuel (i + 1) acc2
        else cumGo g st dr dc fuel (i + 1) acc1
    else []

/-- The cumulative, input-determined reformulation of `simulate_move`. -/
def simulate_move_cumulative (g : Game) (st : GameState) (dr dc : Int) :
    List GameState :=
  cumGo g st dr dc st.players.length 0 st

/-!
Store-passing model for the frame claim: Python objects live on a heap,
so "the search does not mutate `self.state`" is a statement about
writes to store cells. A store is a list of `GameState` cells; a
reference is an index; `deepcopy` allocates a fresh cell; in-place
mutation writes through `List.set`. `self.state` is the cell
`store[g.stateRef]`.
-/

/-- A `Game` whose stored state lives in the store. -/
structure GameS where
  rows : Int
  cols : Int
  stateRef : Nat
deriving DecidableEq, Repr

/-- View a store-based game as a value-based one by dereferencing
`self.state` in the current store. -/
def gameOf (gs : GameS) (store : List GameState) : Game :=
  { rows := gs.rows, cols := gs.cols, state := store.getD gs.stateRef default }

/-- Store-passing player loop of `simulate_move`: the working copy
lives at cell `c`; each iteration reads it, mutates it in place, and
appends a deep copy of it to the store for every emitted successor,
returning the new store and the successor references. -/
def simGoS (gs : GameS) (dr dc : Int) (c : Nat) :
    Nat → Nat → List GameState → List Nat → List GameState × List Nat
  | 0, _, store, refs => (store, refs)
  | fuel + 1, i, store, refs =>
    let cloned := store.getD c default
    if i < cloned.players.length then
      match simStep (gameOf gs store) dr dc cloned i with
      | (c', some s) =>
        simGoS gs dr dc c fuel (i + 1) ((store.set c c') ++ [s]) (refs ++ [store.length])
      | (c', none) => simGoS gs dr dc c fuel (i + 1) (store.set c c') refs
    else (store, refs)

/-- Store-passing `Game.simulate_move`: `deepcopy(current_state)`
allocates the working copy at a fresh cell, then the player loop runs. -/
def simulate_moveS (gs : GameS) (store : List GameState) (ref : Nat)
    (dr dc : Int) : List GameState × List Nat :=
  let st := store.getD ref default
  simGoS gs dr dc store.length st.players.length 0 (store ++ [st]) []

/-- Store-passing expansion of one state over the four directions,
threading the store through the `simulate_move` calls in source order. -/
def expandDirsS (gs : GameS) (store : List GameState) (ref : Nat) :
    List GameState × List Nat :=
  let e1 := simulate_moveS gs store ref (-1) 0
  let e2 := simulate_moveS gs e1.1 ref 1 0
  let e3 := simulate_moveS gs e2.1 ref 0 (-1)
  let e4 := simulate_moveS gs e3.1 ref 0 1
  (e4.1, e1.2 ++ e2.2 ++ e3.2 ++ e4.2)

/-- Store-passing result: optional solution path (as references), pop
counter, trace (as references). -/
abbrev SearchResultS := Option (List Nat) × Nat × List Nat

/-- Store-passing `while stack:` loop of `Game.dfs`. Every pop appends
a deep copy of the popped state to the store (the
`visited_states.append(deepcopy(...))` allocation). -/
def dfsLoopS (gs : GameS) :
    Nat → List (Nat × List Nat) → List KeyT → Nat → List Nat →
      List GameState → List GameState × Option SearchResultS
  | 0, _, _, _, _, store => (store, none)
  | _ + 1, [], _, nv, trace, store => (store, some (none, nv, trace))
  | fuel + 1, (ref, path) :: rest, visited, nv, trace, store =>
    let st := store.getD ref default
    let store1 := store ++ [st]
    let trace1 := trace ++ [store.length]
    if st.reached_goal.all id then (store1, some (some (path ++ [ref]), nv + 1, trace1))
    else if get_state st ∈ visited then dfsLoopS gs fuel rest visited (nv + 1) trace1 store1
    else
      let e := expandDirsS gs store1 ref
      dfsLoopS gs fuel
        ((e.2.map fun r => (r, path ++ [ref])).reverse ++ rest)
        (get_state st :: visited) (nv + 1) trace1 e.1

/-- Store-passing `while queue:` loop of `Game.bfs`. -/
def bfsLoopS (gs : GameS) :
    Nat → List (Nat × List Nat) → List KeyT → Nat → List Nat →
      List GameState → List GameState × Option SearchResultS
  | 0, _, _, _, _, store => (store, none)
  | _ + 1, [], _, nv, trace, store => (store, some (none, nv, trace))
  | fuel + 1, (ref, path) :: rest, visited, nv, trace, store =>
    let st := store.getD ref default
    let store1 := store ++ [st]
    let trace1 := trace ++ [store.length]
    if st.reached_goal.all id then (store1, some (some (path ++ [ref]), nv + 1, trace1))
    else if get_state st ∈ visited then bfsLoopS gs fuel rest visited (nv + 1) trace1 store1
    else
      let e := expandDirsS gs store1 ref
      bfsLoopS gs fuel
        (rest ++ (e.2.map fun r => (r, path ++ [ref])))
        (get_state st :: visited) (nv + 1) trace1 e.1

/-- The tuple order on `(cost, stateRef, path)` entries, dereferencing
the state through the current store for the reached-flag count. -/
def entryLtS (store : List GameState) (e1 e2 : Nat × Nat × List Nat) : Bool :=
  decide (e1.1 < e2.1) ||
    (decide (e1.1 = e2.1) &&
      decide (countTrue (store.getD e1.2.1 default).reached_goal <
        countTrue (store.getD e2.2.1 default).reached_goal))

/-- Store-passing `while priority_queue:` loop of `Game.ucs`. -/
def ucsLoopS (gs : GameS) :
    Nat → List (Nat × Nat × List Nat) → List KeyT → Nat → List Nat →
      List GameState → List GameState × Option SearchResultS
  | 0, _, _, _, _, store => (store, none)
  | fuel + 1, pq, visited, nv, trace, store =>
    match heappop (entryLtS store) pq with
    | none => (store, some (none, nv, trace))
    | some ((cost, ref, path), rest) =>
      let st := store.getD ref default
      let store1 := store ++ [st]
      let trace1 := trace ++ [store.length]
      if st.reached_goal.all id then (store1, some (some (path ++ [ref]), nv + 1, trace1))
      else if get_state st ∈ visited then ucsLoopS gs fuel rest visited (nv + 1) trace1 store1
      else
        let e := expandDirsS gs store1 ref
        ucsLoopS gs fuel
          (e.2.foldl
            (fun h r => if get_state (e.1.getD r default) ∈ (get_state st :: visited) then h
              else heappush (entryLtS e.1) h (cost + 1, r, path ++ [ref]))
            rest)
          (get_state st :: visited) (nv + 1) trace1 e.1

/-- Store-passing `Game.dfs`: `self.state.copy()` allocates the fresh
initial cell, then the loop runs. -/
def dfsS (gs : GameS) (fuel : Nat) (store : List GameState) :
    List GameState × Option SearchResultS :=
  dfsLoopS gs fuel [(store.length, [])] [] 0 []
    (store ++ [store.getD gs.stateRef default])

/-- Store-passing `Game.bfs`. -/
def bfsS (gs : GameS) (fuel : Nat) (store : List GameState) :
    List GameState × Option SearchResultS :=
  bfsLoopS gs fuel [(store.length, [])] [] 0 []
    (store ++ [store.getD gs.stateRef default])

/-- Store-passing `Game.ucs`. -/
def ucsS (gs : GameS) (fuel : Nat) (store : List GameState) :
    List GameState × Option SearchResultS :=
  ucsLoopS gs fuel [(0, store.length, [])] [] 0 []
    (store ++ [store.getD gs.stateRef default])

/-- Scenario A of the spec: 3x3 grid, wall at (0,2), one player at
(0,0) with goal (0,1). -/
def gameA : Game :=
  Game.init 3 3 { walls := [(0, 2)], goals := [(0, 1)], players := [(0, 0)] }

/-- Scenario A initial snapshot. -/
def stateA0 : GameState :=
  { walls := [(0, 2)], goals := [(0, 1)], players := [(0, 0)], reached_goal := [false] }

/-- Scenario A snapshot after sliding down: player stopped at (2,0). -/
def stateADown : GameState :=
  { walls := [(0, 2)], goals := [(0, 1)], players := [(2, 0)], reached_goal := [false] }

/-- Scenario A snapshot after sliding right: player on its goal (0,1). -/
def stateAGoal : GameState :=
  { walls := [(0, 2)], goals := [(0, 1)], players := [(0, 1)], reached_goal := [true] }

/-- Two-player board that separates the code's collision checks from
the spec's sequencing rule: a 2x5 grid, player 0 at (0,3), player 1 at
(0,0), goals out of the sliding row. -/
def gameC1 : Game :=
  Game.init 2 5 { walls := [], goals := [(1, 0), (1, 1)], players := [(0, 3), (0, 0)] }

/-- Sliding right on `gameC1`: first emitted snapshot, player 0 moved
to (0,4). -/
def stateC1a : GameState :=
  { walls := [], goals := [(1, 0), (1, 1)], players := [(0, 4), (0, 0)],
    reached_goal := [false, false] }

/-- Sliding right on `gameC1`, the code's second snapshot: player 1 is
blocked at (0,2) by player 0's *stale* stored-state position (0,3). -/
def stateC1code : GameState :=
  { walls := [], goals := [(1, 0), (1, 1)], players := [(0, 4), (0, 2)],
    reached_goal := [false, false] }

/-- Sliding right on `gameC1`, the spec model's second snapshot: player
1 advances to (0,3) because the working copy shows (0,3) vacated. -/
def stateC1spec : GameState :=
  { walls := [], goals := [(1, 0), (1, 1)], players := [(0, 4), (0, 3)],
    reached_goal := [false, false] }

/-- Two-player board for the frozen-goal witness: 1x3 row, player 0
already finished on its goal (0,0), player 1 at (0,1). -/
def gameC6 : Game :=
  { rows := 1, cols := 3,
    state := { walls := [], goals := [(0, 0), (5, 5)], players := [(0, 0), (0, 1)],
               reached_goal := [true, false] } }

/-- Successor of `gameC6`'s state after sliding right: the frozen
player 0 kept position and flag, player 1 slid to (0,2). -/
def stateC6succ : GameState :=
  { walls := [], goals := [(0, 0), (5, 5)], players := [(0, 0), (0, 2)],
    reached_goal := [true, false] }

/-- Board for the start-on-goal witness: 1x3 row, the single player
starts exactly on its goal cell (0,0). -/
def gameC10 : Game :=
  Game.init 1 3 { walls := [], goals := [(0, 0)], players := [(0, 0)] }

/-- Sliding right on `gameC10`: the player leaves its goal cell and
stops at the far edge, the reached flag still false. -/
def stateC10succ : GameState :=
  { walls := [], goals := [(0, 0)], players := [(0, 2)], reached_goal := [false] }

/-- A position is in bounds and off every wall cell of the board. -/
def okPos (g : Game) (p : Int × Int) : Prop :=
  (0 ≤ p.1 ∧ p.1 < g.rows ∧ 0 ≤ p.2 ∧ p.2 < g.cols) ∧ p ∉ g.state.walls

instance (g : Game) (p : Int × Int) : Decidable (okPos g p) := by
  unfold okPos; infer_instance

/-- One `simulate_move` transition between snapshots, in any direction. -/
def StepRel (g : Game) (st st' : GameState) : Prop :=
  ∃ dr dc : Int, st' ∈ simulate_move g st dr dc

/-- `st'` is reachable from `st` by a sequence of `simulate_move` calls. -/
def Descendant (g : Game) : GameState → GameState → Prop :=
  Relation.ReflTransGen (StepRel g)

/-- States whose shape a search run preserves: player and flag lists
keep the initial lengths and every position lies in the finite
universe `posU`. -/
def GoodSt (g : Game) (s : GameState) : Prop :=
  s.players.length = g.state.players.length ∧
    s.reached_goal.length = g.state.reached_goal.length ∧
    ∀ p ∈ s.players, p ∈ posU g

/-- Canonical keys a search run can encounter. -/
def GoodKey (g : Game) (k : KeyT) : Prop :=
  k.1.length = g.state.players.length ∧
    k.2.length = g.state.reached_goal.length ∧
    ∀ p ∈ k.1, p ∈ posU g

/-- Decoding of a pair of tuples over the finite universes into a
canonical key; its image is a finite superset of all good keys. -/
def keyDecode (g : Game)
    (f : (Fin g.state.players.length → {x // x ∈ posU g}) ×
      (Fin g.state.reached_goal.length → Bool)) : KeyT :=
  (List.ofFn fun j => (f.1 j).1, List.ofFn f.2)

/-- The finite set of all good keys. -/
def goodKeys (g : Game) : Finset KeyT :=
  Finset.image (keyDecode g) Finset.univ

/-- A finished search result is either "no solution" or a path whose
last snapshot has every reached flag true. -/
def searchResultOk : SearchResult → Prop
  | (res, _, _) =>
    match res with
    | some path => ∃ last, path.getLast? = some last ∧ last.reached_goal.all id = true
    | none => True

/-- The binary-heap shape invariant maintained by `heappush`/`heappop`:
no element compares strictly below its parent. -/
def HeapInv {α : Type} [Inhabited α] (lt : α → α → Bool) (h : List α) : Prop :=
  ∀ j, 0 < j → j < h.length →
    lt (h.getD j default) (h.getD ((j - 1) / 2) default) = false

instance {α : Type} [Inhabited α] (lt : α → α → Bool) (h : List α) :
    Decidable (HeapInv lt h) :=
  decidable_of_iff
    (∀ j < h.length, 0 < j →
      lt (h.getD j default) (h.getD ((j - 1) / 2) default) = false)
    (by constructor
        · intro hyp j h1 h2; exact hyp j h2 h1
        · intro hyp j h2 h1; exact hyp j h1 h2)

section ListHelpers

variable {α : Type}

theorem getD_set_self (l : List α) (i : Nat) (a d : α) (h : i < l.length) :
    (l.set i a).getD i d = a := by
  rw [List.getD_eq_getElem?_getD, List.getElem?_set_self (by simpa using h)]
  rfl

theorem getD_set_neq (l : List α) (i j : Nat) (a d : α) (h : i ≠ j) :
    (l.set i a).getD j d = l.getD j d := by
  rw [List.getD_eq_getElem?_getD, List.getElem?_set_ne h, ← List.getD_eq_getElem?_getD]

theorem getD_append_left (l l2 : List α) (j : Nat) (d : α) (h : j < l.length) :
    (l ++ l2).getD j d = l.getD j d := by
  rw [List.getD_eq_getElem?_getD, List.getElem?_append_left h, ← List.getD_eq_getElem?_getD]

theorem getD_dropLast (l : List α) (j : Nat) (d : α) (h : j + 1 < l.length) :
    (l.dropLast).getD j d = l.getD j d := by
  rw [List.getD_eq_getElem?_getD,
    List.getElem?_eq_getElem (l := l.dropLast) (by rw [List.length_dropLast]; omega),
    List.getElem_dropLast, List.getD_eq_getElem?_getD,
    List.getElem?_eq_getElem (by omega)]

theorem getD_mem (l : List α) (j : Nat) (d : α) (h : j < l.length) : l.getD j d ∈ l := by
  rw [List.getD_eq_getElem?_getD, List.getElem?_eq_getElem h]
  exact List.getElem_mem h

theorem getLastD_mem (l : List α) (d : α) (h : l ≠ []) : l.getLastD d ∈ l := by
  rw [List.getLastD_eq_getLast?, List.getLast?_eq_getLast _ h]
  exact List.getLast_mem h

theorem mem_of_mem_set (l : List α) (a : α) (n : Nat) (x : α) (h : x ∈ l.set n a) :
    x = a ∨ x ∈ l := by
  rcases List.mem_or_eq_of_mem_set h with h1 | h1
  · exact Or.inr h1
  · exact Or.inl h1

theorem getD_eq_get (l : List α) (j : Nat) (d : α) (h : j < l.length) :
    l.getD j d = l.get ⟨j, h⟩ := by
  rw [List.getD_eq_getElem?_getD, List.getElem?_eq_getElem h]
  rfl

end ListHelpers

/-- Claim C2, counterexample: on the Scenario A board, breadth-first
search does return a 2-snapshot solution path, but its pop counter is
3, not 1 — the two goal-less frontier states (the initial state and
the down-slide successor) are popped and counted before the goal state
is popped. -/
theorem c2_counterexample :
    (bfs gameA).map (fun r => r.2.1) = some 3 ∧
      (bfs gameA).map (fun r => r.2.1) ≠ some 1 := by
  constructor
  · rfl
  · decide

/-- Claim C2, amended: on the Scenario A board, sliding right moves
the player one cell to (0,1), sets its reached flag and stops, and
breadth-first search returns the 2-snapshot path (initial state plus
goal state) with `nodes_visited` equal to 3 and the three popped states
as trace. -/
theorem c2_amended :
    simulate_move gameA gameA.state 0 1 = [stateAGoal] ∧
      bfs gameA = some (some [stateA0, stateAGoal], 3, [stateA0, stateADown, stateAGoal]) := by
  constructor
  · rfl
  · rfl

/-- Claim C3: in every strategy the all-goals-reached test on a freshly
popped state precedes the visited-set membership test — a popped state
whose canonical key is already in the visited set is still returned as
a success `(path + [state], pop counter, trace)` when all its reached
flags are true. -/
theorem c3_goal_check_precedes_dedup (g : Game) (fuel : Nat) (st : GameState)
    (path : List GameState) (rest : List (GameState × List GameState))
    (visited : List KeyT) (nv : Nat) (trace : List GameState)
    (cost : Nat) (pq : List UEntry) (pqrest : List UEntry) (upath : List GameState)
    (hgoal : st.reached_goal.all id = true) (_hvis : get_state st ∈ visited) :
    dfsLoop g (fuel + 1) ((st, path) :: rest) visited nv trace =
      some (some (path ++ [st]), nv + 1, trace ++ [st]) ∧
    bfsLoop g (fuel + 1) ((st, path) :: rest) visited nv trace =
      some (some (path ++ [st]), nv + 1, trace ++ [st]) ∧
    (heappop entryLt pq = some ((cost, st, upath), pqrest) →
      ucsLoop g (fuel + 1) pq visited nv trace =
        some (some (upath ++ [st]), nv + 1, trace ++ [st])) := by
  refine ⟨?_, ?_, ?_⟩
  · simp [dfsLoop, hgoal]
  · simp [bfsLoop, hgoal]
  · intro hpop
    simp [ucsLoop, hpop, hgoal]

/-- Witness for C3 on the Scenario A goal state with its own key
already in the visited set. -/
theorem c3_witness :
    stateAGoal.reached_goal.all id = true ∧
    get_state stateAGoal ∈ [get_state stateAGoal] ∧
    heappop entryLt [(1, stateAGoal, [stateA0])] =
      some ((1, stateAGoal, [stateA0]), []) ∧
    dfsLoop gameA 1 [(stateAGoal, [stateA0])] [get_state stateAGoal] 0 [] =
      some (some [stateA0, stateAGoal], 1, [stateAGoal]) ∧
    ucsLoop gameA 1 [(1, stateAGoal, [stateA0])] [get_state stateAGoal] 0 [] =
      some (some [stateA0, stateAGoal], 1, [stateAGoal]) := by
  have h := c3_goal_check_precedes_dedup gameA 0 stateAGoal [stateA0] []
    [get_state stateAGoal] 0 [] 1 [(1, stateAGoal, [stateA0])] [] [stateA0]
    (by decide) (by decide)
  exact ⟨by decide, by decide, by decide, h.1, h.2.2 (by decide)⟩

section HeapMembership

variable {α : Type} [Inhabited α] (lt : α → α → Bool)

theorem siftdownAux_length (newitem : α) :
    ∀ (fuel : Nat) (heap : List α) (startpos pos : Nat),
      (siftdownAux lt newitem fuel heap startpos pos).length = heap.length := by
  intro fuel
  induction fuel with
  | zero => intro heap startpos pos; simp [siftdownAux]
  | succ n ih =>
    intro heap startpos pos
    simp only [siftdownAux]
    split
    · split
      · rw [ih]; simp
      · simp
    · simp

theorem mem_siftdownAux (newitem : α) :
    ∀ (fuel : Nat) (heap : List α) (startpos pos : Nat), pos < heap.length →
      ∀ x ∈ siftdownAux lt newitem fuel heap startpos pos, x = newitem ∨ x ∈ heap := by
  intro fuel
  induction fuel with
  | zero =>
    intro heap startpos pos _ x hx
    exact mem_of_mem_set _ _ _ _ (by simpa [siftdownAux] using hx)
  | succ n ih =>
    intro heap startpos pos hpos x hx
    simp only [siftdownAux] at hx
    by_cases h1 : startpos < pos
    · rw [if_pos h1] at hx
      by_cases h2 : lt newitem (heap.getD ((pos - 1) / 2) default) = true
      · rw [if_pos h2] at hx
        have hplt : (pos - 1) / 2 < heap.length := by omega
        have := ih (heap.set pos (heap.getD ((pos - 1) / 2) default)) startpos
          ((pos - 1) / 2) (by simpa using hplt) x hx
        rcases this with h | h
        · exact Or.inl h
        · rcases mem_of_mem_set _ _ _ _ h with h' | h'
          · exact Or.inr (h' ▸ getD_mem _ _ _ hplt)
          · exact Or.inr h'
      · rw [if_neg h2] at hx
        exact mem_of_mem_set _ _ _ _ hx
    · rw [if_neg h1] at hx
      exact mem_of_mem_set _ _ _ _ hx

theorem heappush_length (heap : List α) (item : α) :
    (heappush lt heap item).length = heap.length + 1 := by
  unfold heappush
  rw [siftdownAux_length]
  simp

theorem mem_heappush (heap : List α) (item : α) :
    ∀ x ∈ heappush lt heap item, x = item ∨ x ∈ heap := by
  intro x hx
  have := mem_siftdownAux lt item (heap.length + 1) (heap ++ [item]) 0 heap.length
    (by simp) x hx
  rcases this with h | h
  · exact Or.inl h
  · rcases List.mem_append.1 h with h' | h'
    · exact Or.inr h'
    · exact Or.inl (by simpa using h')

theorem siftupAux_length :
    ∀ (fuel : Nat) (heap : List α) (pos : Nat),
      (siftupAux lt fuel heap pos).1.length = heap.length := by
  intro fuel
  induction fuel with
  | zero => intro heap pos; simp [siftupAux]
  | succ n ih =>
    intro heap pos
    simp only [siftupAux]
    split
    · rw [ih]; simp
    · simp

theorem siftupAux_pos_lt :
    ∀ (fuel : Nat) (heap : List α) (pos : Nat), pos < heap.length →
      (siftupAux lt fuel heap pos).2 < (siftupAux lt fuel heap pos).1.length := by
  intro fuel
  induction fuel with
  | zero => intro heap pos h; simpa [siftupAux] using h
  | succ n ih =>
    intro heap pos h
    simp only [siftupAux]
    split
    · apply ih
      split
      · simpa using (by omega : 2 * pos + 1 + 1 < heap.length)
      · simpa using (by assumption : 2 * pos + 1 < heap.length)
    · simpa using h

theorem mem_siftupAux :
    ∀ (fuel : Nat) (heap : List α) (pos : Nat), pos < heap.length →
      ∀ x ∈ (siftupAux lt fuel heap pos).1, x ∈ heap := by
  intro fuel
  induction fuel with
  | zero => intro heap pos _ x hx; simpa [siftupAux] using hx
  | succ n ih =>
    intro heap pos hpos x hx
    simp only [siftupAux] at hx
    by_cases h1 : 2 * pos + 1 < heap.length
    · rw [if_pos h1] at hx
      set cp := if 2 * pos + 1 + 1 < heap.length ∧
          lt (heap.getD (2 * pos + 1) default) (heap.getD (2 * pos + 1 + 1) default) = false
        then 2 * pos + 1 + 1 else 2 * pos + 1 with hcp
      have hcplt : cp < heap.length := by
        rw [hcp]; split
        · omega
        · exact h1
      have := ih (heap.set pos (heap.getD cp default)) cp (by simpa using hcplt) x hx
      rcases mem_of_mem_set _ _ _ _ this with h' | h'
      · exact h' ▸ getD_mem _ _ _ hcplt
      · exact h'
    · rw [if_neg h1] at hx
      exact hx

end HeapMembership

/-- Every entry of the heap after a `ucs` push phase either was already
in the heap or has a canonical key outside the visited set: visited
successors are discarded before ever being pushed. -/
theorem ucsPushes_mem (g : Game) (st : GameState) (path : List GameState)
    (cost : Nat) (visited : List KeyT) (rest : List UEntry) :
    ∀ e ∈ ucsPushes g st path cost visited rest,
      e ∈ rest ∨ get_state e.2.1 ∉ visited := by
  unfold ucsPushes
  generalize expandDirs g st = l
  induction l generalizing rest with
  | nil => intro e he; exact Or.inl (by simpa using he)
  | cons hd tl ih =>
    intro e he
    simp only [List.foldl_cons] at he
    by_cases hv : get_state hd ∈ visited
    · rw [if_pos hv] at he
      exact ih rest e he
    · rw [if_neg hv] at he
      rcases ih _ e he with h | h
      · rcases mem_heappush _ _ _ _ h with h' | h'
        · right
          rw [h']
          exact hv
        · exact Or.inl h'
      · exact Or.inr h

/-- Claim C4: after expanding a freshly popped state, uniform-cost
search pushes only the successors whose canonical key is not yet
visited (every entry of its new frontier is an old entry or has an
unvisited key), whereas depth-first and breadth-first push every
generated successor unconditionally — a successor with an
already-visited key still enters their frontiers. -/
theorem c4_push_filtering (g : Game) (fuel : Nat) (st : GameState)
    (path : List GameState) (rest : List (GameState × List GameState))
    (visited : List KeyT) (nv : Nat) (trace : List GameState) (s : GameState)
    (cost : Nat) (pq : List UEntry) (pqrest : List UEntry) (upath : List GameState)
    (hgoal : st.reached_goal.all id = false)
    (hnv : get_state st ∉ visited)
    (hs : s ∈ expandDirs g st)
    (hsv : get_state s ∈ visited) :
    (dfsLoop g (fuel + 1) ((st, path) :: rest) visited nv trace =
       dfsLoop g fuel (((expandDirs g st).map fun t => (t, path ++ [st])).reverse ++ rest)
         (get_state st :: visited) (nv + 1) (trace ++ [st]) ∧
     (s, path ++ [st]) ∈ (expandDirs g st).map fun t => (t, path ++ [st])) ∧
    (bfsLoop g (fuel + 1) ((st, path) :: rest) visited nv trace =
       bfsLoop g fuel (rest ++ (expandDirs g st).map fun t => (t, path ++ [st]))
         (get_state st :: visited) (nv + 1) (trace ++ [st]) ∧
     (s, path ++ [st]) ∈ (expandDirs g st).map fun t => (t, path ++ [st])) ∧
    (heappop entryLt pq = some ((cost, st, upath), pqrest) →
      ucsLoop g (fuel + 1) pq visited nv trace =
        ucsLoop g fuel (ucsPushes g st upath cost (get_state st :: visited) pqrest)
          (get_state st :: visited) (nv + 1) (trace ++ [st]) ∧
      ∀ e ∈ ucsPushes g st upath cost (get_state st :: visited) pqrest,
        e ∈ pqrest ∨ e.2.1 ≠ s) := by
  refine ⟨⟨?_, List.mem_map_of_mem _ hs⟩, ⟨?_, List.mem_map_of_mem _ hs⟩, ?_⟩
  · simp [dfsLoop, hgoal, hnv]
  · simp [bfsLoop, hgoal, hnv]
  · intro hpop
    refine ⟨by simp [ucsLoop, hpop, hgoal, hnv], ?_⟩
    intro e he
    rcases ucsPushes_mem g st upath cost (get_state st :: visited) pqrest e he with h | h
    · exact Or.inl h
    · right
      intro hcontra
      exact h (by rw [hcontra]; exact List.mem_cons_of_mem _ hsv)

/-- Witness for C4 on Scenario A: the down-slide successor has its key
pre-seeded in the visited set; depth-first still pushes it while
uniform-cost drops it. -/
theorem c4_witness :
    stateA0.reached_goal.all id = false ∧
    get_state stateA0 ∉ [get_state stateADown] ∧
    stateADown ∈ expandDirs gameA stateA0 ∧
    get_state stateADown ∈ [get_state stateADown] ∧
    (stateADown, [stateA0]) ∈ ((expandDirs gameA stateA0).map fun t => (t, [stateA0])) ∧
    ∀ e ∈ ucsPushes gameA stateA0 [] 0 (get_state stateA0 :: [get_state stateADown]) [],
      e ∈ ([] : List UEntry) ∨ e.2.1 ≠ stateADown := by
  have h := c4_push_filtering gameA 0 stateA0 [] [] [get_state stateADown] 0 [] stateADown
    0 [(0, stateA0, [])] [] [] (by decide) (by decide) (by decide) (by decide)
  exact ⟨by decide, by decide, by decide, by decide, by simpa using h.1.2,
    (h.2.2 (by decide)).2⟩

/-- The player loop computes each remaining player's slide from data
that earlier players' updates never touch, while the emitted snapshots
accumulate on the shared working copy. -/
theorem simGo_eq_cumGo (g : Game) (st : GameState) (dr dc : Int) :
    ∀ (fuel i : Nat) (cloned : GameState),
      cloned.goals = st.goals →
      (∀ j, i ≤ j → cloned.players.getD j (0, 0) = st.players.getD j (0, 0)) →
      (∀ j, i ≤ j → cloned.reached_goal.getD j false = st.reached_goal.getD j false) →
      simGo g dr dc fuel i cloned = cumGo g st dr dc fuel i cloned := by
  intro fuel
  induction fuel with
  | zero => intro i cloned _ _ _; rfl
  | succ n ih =>
    intro i cloned hg hp hr
    have hpi := hp i (le_refl i)
    have hri := hr i (le_refl i)
    simp only [simGo, cumGo]
    by_cases hguard : i < cloned.players.length
    · rw [if_pos hguard, if_pos hguard]
      by_cases hskip : cloned.reached_goal.getD i false = true
      · have hstep : simStep g dr dc cloned i = (cloned, none) := by
          unfold simStep
          rw [if_pos hskip]
        rw [hstep, if_pos (hri ▸ hskip)]
        exact ih (i + 1) cloned hg (fun j hj => hp j (by omega))
          (fun j hj => hr j (by omega))
      · have hout : slideAux g i dr dc (cloned.goals.getD i (0, 0)) (slideFuel g)
            (cloned.players.getD i (0, 0)) = playerOutcome g st dr dc i := by
          rw [playerOutcome, hg, hpi]
        have hskip' : st.reached_goal.getD i false = false := by
          rw [← hri]; exact Bool.not_eq_true _ ▸ hskip
        rw [if_neg (by rw [hskip']; exact Bool.false_ne_true)]
        by_cases hmv : (playerOutcome g st dr dc i).1 ≠ st.players.getD i (0, 0)
        · have hstep : simStep g dr dc cloned i =
              (let acc1 := if (playerOutcome g st dr dc i).2 then
                  { cloned with reached_goal := cloned.reached_goal.set i true } else cloned
               ({ acc1 with players := acc1.players.set i (playerOutcome g st dr dc i).1 },
                 some { acc1 with players :=
                   acc1.players.set i (playerOutcome g st dr dc i).1 })) := by
            unfold simStep
            rw [if_neg hskip]
            simp only []
            rw [hout, hpi, if_pos hmv]
          rw [hstep, if_pos hmv]
          refine congrArg _ (ih (i + 1) _ ?_ ?_ ?_)
          · by_cases hfl : (playerOutcome g st dr dc i).2 <;> simp [hfl, hg]
          · intro j hj
            by_cases hfl : (playerOutcome g st dr dc i).2 <;>
              simp only [hfl, if_true, if_false, Bool.false_eq_true] <;>
              rw [getD_set_neq _ _ _ _ _ (by omega : i ≠ j)] <;> exact hp j (by omega)
          · intro j hj
            by_cases hfl : (playerOutcome g st dr dc i).2 <;>
              simp only [hfl, if_true, if_false, Bool.false_eq_true]
            · rw [getD_set_neq _ _ _ _ _ (by omega : i ≠ j)]; exact hr j (by omega)
            · exact hr j (by omega)
        · have hstep : simStep g dr dc cloned i =
              (if (playerOutcome g st dr dc i).2 then
                  { cloned with reached_goal := cloned.reached_goal.set i true }
                else cloned, none) := by
            unfold simStep
            rw [if_neg hskip]
            simp only []
            rw [hout, hpi, if_neg hmv]
          rw [hstep, if_neg hmv]
          refine ih (i + 1) _ ?_ ?_ ?_
          · by_cases hfl : (playerOutcome g st dr dc i).2 <;> simp [hfl, hg]
          · intro j hj
            by_cases hfl : (playerOutcome g st dr dc i).2 <;>
              simp only [hfl, if_true, if_false, Bool.false_eq_true] <;>
              exact hp j (by omega)
          · intro j hj
            by_cases hfl : (playerOutcome g st dr dc i).2 <;>
              simp only [hfl, if_true, if_false, Bool.false_eq_true]
            · rw [getD_set_neq _ _ _ _ _ (by omega : i ≠ j)]; exact hr j (by omega)
            · exact hr j (by omega)
    · rw [if_neg hguard, if_neg hguard]

/-- Claim C1, amended: in `simulate_move` the working copy is shared —
each emitted snapshot carries all earlier players' already-applied
moves forward — but the validity checks consult the game's *stored*
state, so an earlier player's applied move neither blocks nor unblocks
a later player in the same call: `simulate_move` coincides with the
reformulation whose per-player slide outcome is computed from the
stored state and the input snapshot alone. -/
theorem c1_amended (g : Game) (st : GameState) (dr dc : Int) :
    simulate_move g st dr dc = simulate_move_cumulative g st dr dc :=
  simGo_eq_cumGo g st dr dc st.players.length 0 st rfl (fun _ _ => rfl) (fun _ _ => rfl)

/-- Case normal form of `simStep`: skip a finished player; otherwise
flag-update, and emit exactly when the slide moved the player. -/
theorem simStep_shape (g : Game) (dr dc : Int) (cloned : GameState) (k : Nat) :
    simStep g dr dc cloned k =
      (if cloned.reached_goal.getD k false then (cloned, none)
       else if (slideAux g k dr dc (cloned.goals.getD k (0, 0)) (slideFuel g)
           (cloned.players.getD k (0, 0))).1 = cloned.players.getD k (0, 0) then
         (stepFlagged g dr dc cloned k, none)
       else (stepMoved g dr dc cloned k, some (stepMoved g dr dc cloned k))) := by
  by_cases hskip : cloned.reached_goal.getD k false = true
  · rw [if_pos hskip]
    unfold simStep
    rw [if_pos hskip]
  · rw [if_neg hskip]
    by_cases hmv : (slideAux g k dr dc (cloned.goals.getD k (0, 0)) (slideFuel g)
        (cloned.players.getD k (0, 0))).1 = cloned.players.getD k (0, 0)
    · rw [if_pos hmv]
      unfold simStep
      rw [if_neg hskip]
      simp only []
      rw [if_neg (by simpa using hmv), stepFlagged]
    · rw [if_neg hmv]
      unfold simStep
      rw [if_neg hskip]
      simp only []
      rw [if_pos hmv, stepMoved, stepFlagged]

/-- When `simStep` emits a snapshot, it is exactly the updated working
copy. -/
theorem simStep_some_eq (g : Game) (dr dc : Int) (cloned : GameState) (k : Nat)
    (c' s : GameState) (h : simStep g dr dc cloned k = (c', some s)) : s = c' := by
  rw [simStep_shape] at h
  split_ifs at h
  · cases h
  · cases h
  · cases h; rfl

/-- Processing player `k` never touches the flag or position seen at a
frozen index `i`. -/
theorem simStep_preserve_at (g : Game) (dr dc : Int) (cloned : GameState) (k i : Nat)
    (h : cloned.reached_goal.getD i false = true) :
    (simStep g dr dc cloned k).1.reached_goal.getD i false = true ∧
      (simStep g dr dc cloned k).1.players.getD i (0, 0) =
        cloned.players.getD i (0, 0) := by
  by_cases hk : k = i
  · subst hk
    rw [simStep_shape, if_pos h]
    exact ⟨h, rfl⟩
  · rw [simStep_shape]
    split_ifs
    · exact ⟨h, rfl⟩
    · unfold stepFlagged
      split_ifs
      · exact ⟨by rw [getD_set_neq _ _ _ _ _ hk]; exact h, rfl⟩
      · exact ⟨h, rfl⟩
    · unfold stepMoved stepFlagged
      split_ifs
      · exact ⟨by rw [getD_set_neq _ _ _ _ _ hk]; exact h,
          by rw [getD_set_neq _ _ _ _ _ hk]⟩
      · exact ⟨h, by rw [getD_set_neq _ _ _ _ _ hk]⟩

/-- Fold form of the frozen-goal invariant: if the working copy has a
true flag at `i`, every emitted snapshot keeps that flag and the
corresponding position. -/
theorem simGo_frozen (g : Game) (dr dc : Int) (i : Nat) :
    ∀ (fuel k : Nat) (cloned : GameState),
      cloned.reached_goal.getD i false = true →
      ∀ s' ∈ simGo g dr dc fuel k cloned,
        s'.reached_goal.getD i false = true ∧
          s'.players.getD i (0, 0) = cloned.players.getD i (0, 0) := by
  intro fuel
  induction fuel with
  | zero => intro k cloned _ s' hs'; simp [simGo] at hs'
  | succ n ih =>
    intro k cloned hflag s' hs'
    simp only [simGo] at hs'
    by_cases hguard : k < cloned.players.length
    · rw [if_pos hguard] at hs'
      obtain ⟨hflag', hpos'⟩ := simStep_preserve_at g dr dc cloned k i hflag
      rcases hstep : simStep g dr dc cloned k with ⟨c', out⟩
      rw [hstep] at hs' hflag' hpos'
      rcases out with _ | s
      · simp only at hs'
        obtain ⟨h1, h2⟩ := ih (k + 1) c' hflag' s' hs'
        exact ⟨h1, h2.trans hpos'⟩
      · simp only at hs'
        rcases List.mem_cons.1 hs' with h | h
        · have := simStep_some_eq g dr dc cloned k c' s hstep
          subst this
          exact ⟨h ▸ hflag', h ▸ hpos'⟩
        · obtain ⟨h1, h2⟩ := ih (k + 1) c' hflag' s' h
          exact ⟨h1, h2.trans hpos'⟩
    · rw [if_neg hguard] at hs'
      simp at hs'

/-- Claim C6: once a player's reached flag is true in some state, every
descendant state produced by any sequence of `simulate_move` calls
keeps that flag true and that player's position unchanged. -/
theorem c6_frozen_goal (g : Game) (st st' : GameState) (i : Nat)
    (hd : Descendant g st st')
    (hflag : st.reached_goal.getD i false = true) :
    st'.reached_goal.getD i false = true ∧
      st'.players.getD i (0, 0) = st.players.getD i (0, 0) := by
  induction hd with
  | refl => exact ⟨hflag, rfl⟩
  | tail _ hstep ih =>
    obtain ⟨dr, dc, hmem⟩ := hstep
    obtain ⟨h1, h2⟩ := ih
    obtain ⟨h1', h2'⟩ := simGo_frozen g dr dc i _ 0 _ h1 _ hmem
    exact ⟨h1', h2'.trans h2⟩

/-- Witness for C6 on `gameC6`: the frozen player 0 keeps flag and
position in the successor reached by sliding right. -/
theorem c6_witness :
    gameC6.state.reached_goal.getD 0 false = true ∧
    Descendant gameC6 gameC6.state stateC6succ ∧
    stateC6succ.reached_goal.getD 0 false = true ∧
    stateC6succ.players.getD 0 (0, 0) = gameC6.state.players.getD 0 (0, 0) := by
  have hdesc : Descendant gameC6 gameC6.state stateC6succ :=
    Relation.ReflTransGen.single ⟨0, 1, by decide⟩
  obtain ⟨h1, h2⟩ := c6_frozen_goal gameC6 gameC6.state stateC6succ 0 hdesc (by decide)
  exact ⟨by decide, hdesc, h1, h2⟩

/-- A cell accepted by `is_valid_move` is in bounds and off every wall. -/
theorem is_valid_move_ok (g : Game) (r c : Int) (i : Nat)
    (h : is_valid_move g r c i = true) : okPos g (r, c) := by
  unfold is_valid_move at h
  split_ifs at h with h1 h2 h3 h4
  exact ⟨⟨by omega, by omega, by omega, by omega⟩, h2⟩

/-- The slide loop ends either where it started or on a cell accepted
by `is_valid_move`. -/
theorem slideAux_result (g : Game) (i : Nat) (dr dc : Int) (goal : Int × Int) :
    ∀ (fuel : Nat) (pos : Int × Int),
      (slideAux g i dr dc goal fuel pos).1 = pos ∨
        is_valid_move g (slideAux g i dr dc goal fuel pos).1.1
          (slideAux g i dr dc goal fuel pos).1.2 i = true := by
  intro fuel
  induction fuel with
  | zero => intro pos; exact Or.inl rfl
  | succ n ih =>
    intro pos
    simp only [slideAux]
    by_cases hval : is_valid_move g (pos.1 + dr) (pos.2 + dc) i = true
    · rw [if_neg (by simpa using hval)]
      by_cases hgoal : (pos.1 + dr, pos.2 + dc) = goal
      · rw [if_pos hgoal]
        exact Or.inr hval
      · rw [if_neg hgoal]
        rcases ih (pos.1 + dr, pos.2 + dc) with h | h
        · rw [h]
          exact Or.inr hval
        · exact Or.inr h
    · rw [if_pos (by simpa using hval)]
      exact Or.inl rfl

/-- One `simStep` keeps every player position in bounds and off walls. -/
theorem simStep_ok (g : Game) (dr dc : Int) (cloned : GameState) (k : Nat)
    (h : ∀ p ∈ cloned.players, okPos g p) :
    ∀ p ∈ (simStep g dr dc cloned k).1.players, okPos g p := by
  rw [simStep_shape]
  split_ifs with h1 h2
  · exact h
  · unfold stepFlagged
    split_ifs <;> exact h
  · intro p hp
    unfold stepMoved at hp
    have hp' : p ∈ (stepFlagged g dr dc cloned k).players.set k
        (slideAux g k dr dc (cloned.goals.getD k (0, 0)) (slideFuel g)
          (cloned.players.getD k (0, 0))).1 := hp
    have hfl : (stepFlagged g dr dc cloned k).players = cloned.players := by
      unfold stepFlagged; split_ifs <;> rfl
    rw [hfl] at hp'
    rcases mem_of_mem_set _ _ _ _ hp' with h' | h'
    · rcases slideAux_result g k dr dc (cloned.goals.getD k (0, 0)) (slideFuel g)
        (cloned.players.getD k (0, 0)) with hr | hr
      · exact absurd hr h2
      · have := is_valid_move_ok g _ _ k hr
        rw [h']
        simpa using this
    · exact h p h'

/-- Fold form of the bounds invariant. -/
theorem simGo_ok (g : Game) (dr dc : Int) :
    ∀ (fuel k : Nat) (cloned : GameState),
      (∀ p ∈ cloned.players, okPos g p) →
      ∀ s' ∈ simGo g dr dc fuel k cloned, ∀ p ∈ s'.players, okPos g p := by
  intro fuel
  induction fuel with
  | zero => intro k cloned _ s' hs'; simp [simGo] at hs'
  | succ n ih =>
    intro k cloned hok s' hs'
    simp only [simGo] at hs'
    by_cases hguard : k < cloned.players.length
    · rw [if_pos hguard] at hs'
      have hok' := simStep_ok g dr dc cloned k hok
      rcases hstep : simStep g dr dc cloned k with ⟨c', out⟩
      rw [hstep] at hs' hok'
      rcases out with _ | s
      · exact ih (k + 1) c' hok' s' hs'
      · rcases List.mem_cons.1 hs' with h | h
        · have := simStep_some_eq g dr dc cloned k c' s hstep
          subst this
          exact h ▸ hok'
        · exact ih (k + 1) c' hok' s' h
    · rw [if_neg hguard] at hs'
      simp at hs'

/-- Claim C7: if every player position of the input state is inside the
grid and off every wall cell, then so is every player position of every
successor returned by `simulate_move`. -/
theorem c7_bounds_invariant (g : Game) (st : GameState) (dr dc : Int)
    (h : ∀ p ∈ st.players, okPos g p) :
    ∀ s' ∈ simulate_move g st dr dc, ∀ p ∈ s'.players, okPos g p :=
  simGo_ok g dr dc st.players.length 0 st h

/-- Witness for C7 on Scenario A, sliding down. -/
theorem c7_witness :
    (∀ p ∈ gameA.state.players, okPos gameA p) ∧
    stateADown ∈ simulate_move gameA gameA.state 1 0 ∧
    ∀ p ∈ stateADown.players, okPos gameA p := by
  refine ⟨by decide, by decide, ?_⟩
  exact c7_bounds_invariant gameA gameA.state 1 0 (by decide) stateADown (by decide)

/-- Processing a different player leaves the flag, position and goal
data of player `i` unchanged. -/
theorem simStep_preserve_ne (g : Game) (dr dc : Int) (cloned : GameState)
    (k i : Nat) (hk : k ≠ i) :
    (simStep g dr dc cloned k).1.reached_goal.getD i false =
        cloned.reached_goal.getD i false ∧
      (simStep g dr dc cloned k).1.players.getD i (0, 0) =
        cloned.players.getD i (0, 0) ∧
      (simStep g dr dc cloned k).1.goals = cloned.goals := by
  rw [simStep_shape]
  split_ifs
  · exact ⟨rfl, rfl, rfl⟩
  · unfold stepFlagged
    split_ifs
    · exact ⟨getD_set_neq _ _ _ _ _ hk, rfl, rfl⟩
    · exact ⟨rfl, rfl, rfl⟩
  · unfold stepMoved stepFlagged
    split_ifs
    · exact ⟨getD_set_neq _ _ _ _ _ hk, getD_set_neq _ _ _ _ _ hk, rfl⟩
    · exact ⟨rfl, getD_set_neq _ _ _ _ _ hk, rfl⟩

/-- If player `i` is unfinished and its slide does not hit its goal,
processing it leaves the flag list unchanged. -/
theorem simStep_self_noflag (g : Game) (dr dc : Int) (cloned : GameState) (i : Nat)
    (hflag : cloned.reached_goal.getD i false = false)
    (hout : (slideAux g i dr dc (cloned.goals.getD i (0, 0)) (slideFuel g)
      (cloned.players.getD i (0, 0))).2 = false) :
    (simStep g dr dc cloned i).1.reached_goal = cloned.reached_goal := by
  rw [simStep_shape, if_neg (by rw [hflag]; exact Bool.false_ne_true)]
  split_ifs
  · unfold stepFlagged
    rw [if_neg (by rw [hout]; exact Bool.false_ne_true)]
  · unfold stepMoved stepFlagged
    rw [if_neg (by rw [hout]; exact Bool.false_ne_true)]

/-- Fold form: if player `i` is unfinished and (while still to be
processed) its slide cannot hit its goal, every emitted snapshot keeps
its reached flag false. -/
theorem simGo_noflag (g : Game) (dr dc : Int) (i : Nat) :
    ∀ (fuel k : Nat) (cloned : GameState),
      cloned.reached_goal.getD i false = false →
      (k ≤ i → (slideAux g i dr dc (cloned.goals.getD i (0, 0)) (slideFuel g)
        (cloned.players.getD i (0, 0))).2 = false) →
      ∀ s' ∈ simGo g dr dc fuel k cloned, s'.reached_goal.getD i false = false := by
  intro fuel
  induction fuel with
  | zero => intro k cloned _ _ s' hs'; simp [simGo] at hs'
  | succ n ih =>
    intro k cloned hflag hout s' hs'
    simp only [simGo] at hs'
    by_cases hguard : k < cloned.players.length
    · rw [if_pos hguard] at hs'
      by_cases hk : k = i
      · subst hk
        have hre : (simStep g dr dc cloned k).1.reached_goal = cloned.reached_goal :=
          simStep_self_noflag g dr dc cloned k hflag (hout (le_refl k))
        rcases hstep : simStep g dr dc cloned k with ⟨c', out⟩
        rw [hstep] at hs' hre
        have hflag' : c'.reached_goal.getD k false = false := by rw [hre]; exact hflag
        have hnext : (k + 1 ≤ k → (slideAux g k dr dc (c'.goals.getD k (0, 0)) (slideFuel g)
            (c'.players.getD k (0, 0))).2 = false) := by
          intro hcon; omega
        rcases out with _ | s
        · exact ih (k + 1) c' hflag' hnext s' hs'
        · rcases List.mem_cons.1 hs' with h | h
          · have := simStep_some_eq g dr dc cloned k c' s hstep
            subst this
            exact h ▸ hflag'
          · exact ih (k + 1) c' hflag' hnext s' h
      · obtain ⟨h1, h2, h3⟩ := simStep_preserve_ne g dr dc cloned k i hk
        rcases hstep : simStep g dr dc cloned k with ⟨c', out⟩
        rw [hstep] at hs' h1 h2 h3
        have hflag' : c'.reached_goal.getD i false = false := by rw [h1]; exact hflag
        have hnext : (k + 1 ≤ i → (slideAux g i dr dc (c'.goals.getD i (0, 0)) (slideFuel g)
            (c'.players.getD i (0, 0))).2 = false) := by
          intro hcon
          rw [h2, h3]
          exact hout (by omega)
        rcases out with _ | s
        · exact ih (k + 1) c' hflag' hnext s' hs'
        · rcases List.mem_cons.1 hs' with h | h
          · have := simStep_some_eq g dr dc cloned k c' s hstep
            subst this
            exact h ▸ hflag'
          · exact ih (k + 1) c' hflag' hnext s' h
    · rw [if_neg hguard] at hs'
      simp at hs'

/-- A slide whose stepped-to cells all avoid the goal never sets the
reached flag. -/
theorem slideAux_no_goal (g : Game) (i : Nat) (dr dc : Int) (goal : Int × Int) :
    ∀ (fuel : Nat) (pos : Int × Int),
      (∀ n : Nat, (pos.1 + dr * (n + 1), pos.2 + dc * (n + 1)) ≠ goal) →
      (slideAux g i dr dc goal fuel pos).2 = false := by
  intro fuel
  induction fuel with
  | zero => intro pos _; rfl
  | succ n ih =>
    intro pos hne
    simp only [slideAux]
    by_cases hval : is_valid_move g (pos.1 + dr) (pos.2 + dc) i = true
    · rw [if_neg (by simpa using hval)]
      have hng : (pos.1 + dr, pos.2 + dc) ≠ goal := by
        have := hne 0
        simpa using this
      rw [if_neg hng]
      apply ih
      intro m hcon
      apply hne (m + 1)
      have h1 := congrArg Prod.fst hcon
      have h2 := congrArg Prod.snd hcon
      dsimp only at h1 h2
      refine Prod.ext_iff.mpr ⟨?_, ?_⟩
      · dsimp only
        rw [← h1]
        push_cast
        ring
      · dsimp only
        rw [← h2]
        push_cast
        ring
    · rw [if_pos (by simpa using hval)]

/-- A cardinal slide starting exactly on the goal cell never returns to
it, hence never sets the reached flag. -/
theorem slideAux_from_goal (g : Game) (i : Nat) (dr dc : Int) (goal : Int × Int)
    (hd : (dr, dc) ∈ dirList) (fuel : Nat) :
    (slideAux g i dr dc goal fuel goal).2 = false := by
  apply slideAux_no_goal
  intro m hcon
  have h1 := congrArg Prod.fst hcon
  have h2 := congrArg Prod.snd hcon
  dsimp only at h1 h2
  simp only [dirList, List.mem_cons, List.not_mem_nil, or_false] at hd
  rcases hd with h | h | h | h <;>
    (injection h with hdr hdc; rw [hdr] at h1; rw [hdc] at h2; omega)

/-- Claim C10: a player whose starting position equals its goal is
constructed with `reached_goal` false (construction never sets flags),
and `simulate_move` still slides it: every successor of a state where
that player sits unfinished on its goal keeps its reached flag false —
the flag is set only when a slide step lands on the goal cell. -/
theorem c10_start_on_goal :
    (∀ (rows cols : Int) (bd : BoardDetails),
      (Game.init rows cols bd).state.reached_goal =
        List.replicate bd.players.length false) ∧
    (∀ (g : Game) (st : GameState) (i : Nat) (dr dc : Int),
      (dr, dc) ∈ dirList →
      st.reached_goal.getD i false = false →
      st.players.getD i (0, 0) = st.goals.getD i (0, 0) →
      ∀ s' ∈ simulate_move g st dr dc, s'.reached_goal.getD i false = false) := by
  constructor
  · intro rows cols bd
    rfl
  · intro g st i dr dc hd hflag hpos s' hs'
    refine simGo_noflag g dr dc i st.players.length 0 st hflag ?_ s' hs'
    intro _
    rw [hpos]
    exact slideAux_from_goal g i dr dc (st.goals.getD i (0, 0)) hd (slideFuel g)

/-- Witness for C10 on `gameC10`: the player starts on its goal with a
false flag and slides away to (0,2), flag still false. -/
theorem c10_witness :
    (Game.init 1 3 { walls := [], goals := [(0, 0)], players := [(0, 0)] }).state.reached_goal =
      List.replicate 1 false ∧
    (0, 1) ∈ dirList ∧
    gameC10.state.reached_goal.getD 0 false = false ∧
    gameC10.state.players.getD 0 (0, 0) = gameC10.state.goals.getD 0 (0, 0) ∧
    simulate_move gameC10 gameC10.state 0 1 = [stateC10succ] ∧
    stateC10succ.reached_goal.getD 0 false = false := by
  refine ⟨c10_start_on_goal.1 1 3 _, by decide, by decide, by decide, by decide, ?_⟩
  exact c10_start_on_goal.2 gameC10 gameC10.state 0 0 1 (by decide) (by decide)
    (by decide) stateC10succ (by decide)

/-- The store-passing player loop only writes the working-copy cell
`c` and appends: every cell below `L ≤ c` (and within the store) keeps
its value, and the store never shrinks. -/
theorem simGoS_preserve (gs : GameS) (dr dc : Int) (c : Nat) :
    ∀ (fuel i : Nat) (store : List GameState) (refs : List Nat) (L : Nat),
      L ≤ c → L ≤ store.length →
      (∀ j, j < L →
        (simGoS gs dr dc c fuel i store refs).1.getD j default = store.getD j default) ∧
      store.length ≤ (simGoS gs dr dc c fuel i store refs).1.length := by
  intro fuel
  induction fuel with
  | zero => intro i store refs L _ _; exact ⟨fun _ _ => rfl, le_refl _⟩
  | succ n ih =>
    intro i store refs L hLc hLs
    simp only [simGoS]
    by_cases hguard : i < (store.getD c default).players.length
    · rw [if_pos hguard]
      rcases hstep : simStep (gameOf gs store) dr dc (store.getD c default) i with ⟨c', out⟩
      have hset : ∀ j, j < L → (store.set c c').getD j default = store.getD j default := by
        intro j hj
        exact getD_set_neq _ _ _ _ _ (by omega)
      have hsetlen : (store.set c c').length = store.length := by simp
      rcases out with _ | s
      · simp only
        obtain ⟨hp, hl⟩ := ih (i + 1) (store.set c c') refs L hLc (by omega)
        exact ⟨fun j hj => (hp j hj).trans (hset j hj), by omega⟩
      · simp only
        obtain ⟨hp, hl⟩ := ih (i + 1) ((store.set c c') ++ [s])
          (refs ++ [store.length]) L hLc (by simp; omega)
        have hlen : ((store.set c c') ++ [s]).length = store.length + 1 := by simp
        refine ⟨fun j hj => ?_, by omega⟩
        rw [hp j hj, getD_append_left _ _ _ _ (by omega), hset j hj]
    · rw [if_neg hguard]
      exact ⟨fun _ _ => rfl, le_refl _⟩

/-- `simulate_moveS` preserves every pre-existing store cell. -/
theorem simulate_moveS_preserve (gs : GameS) (store : List GameState) (ref : Nat)
    (dr dc : Int) :
    (∀ j, j < store.length →
      (simulate_moveS gs store ref dr dc).1.getD j default = store.getD j default) ∧
    store.length ≤ (simulate_moveS gs store ref dr dc).1.length := by
  simp only [simulate_moveS]
  obtain ⟨hp, hl⟩ := simGoS_preserve gs dr dc store.length
    (store.getD ref default).players.length 0 (store ++ [store.getD ref default]) []
    store.length (le_refl _) (by simp)
  refine ⟨fun j hj => ?_, le_trans (by simp) hl⟩
  rw [hp j hj, getD_append_left _ _ _ _ hj]

/-- The four-direction store-passing expansion preserves every
pre-existing store cell. -/
theorem expandDirsS_preserve (gs : GameS) (store : List GameState) (ref : Nat) :
    (∀ j, j < store.length →
      (expandDirsS gs store ref).1.getD j default = store.getD j default) ∧
    store.length ≤ (expandDirsS gs store ref).1.length := by
  simp only [expandDirsS]
  obtain ⟨h1, l1⟩ := simulate_moveS_preserve gs store ref (-1) 0
  obtain ⟨h2, l2⟩ := simulate_moveS_preserve gs (simulate_moveS gs store ref (-1) 0).1 ref 1 0
  obtain ⟨h3, l3⟩ := simulate_moveS_preserve gs
    (simulate_moveS gs (simulate_moveS gs store ref (-1) 0).1 ref 1 0).1 ref 0 (-1)
  obtain ⟨h4, l4⟩ := simulate_moveS_preserve gs
    (simulate_moveS gs (simulate_moveS gs (simulate_moveS gs store ref (-1) 0).1 ref 1 0).1
      ref 0 (-1)).1 ref 0 1
  refine ⟨fun j hj => ?_, by omega⟩
  rw [h4 j (by omega), h3 j (by omega), h2 j (by omega), h1 j hj]

/-- The store-passing dfs loop preserves every pre-existing store cell. -/
theorem dfsLoopS_preserve (gs : GameS) :
    ∀ (fuel : Nat) (stack : List (Nat × List Nat)) (visited : List KeyT) (nv : Nat)
      (trace : List Nat) (store : List GameState),
      ∀ j, j < store.length →
        (dfsLoopS gs fuel stack visited nv trace store).1.getD j default =
          store.getD j default := by
  intro fuel
  induction fuel with
  | zero => intro stack visited nv trace store j hj; rfl
  | succ n ih =>
    intro stack visited nv trace store j hj
    match stack with
    | [] => rfl
    | (ref, path) :: rest =>
      simp only [dfsLoopS]
      split_ifs with h1 h2
      · exact getD_append_left _ _ _ _ hj
      · rw [ih rest visited (nv + 1) (trace ++ [store.length]) (store ++ [store.getD ref default]) j (by simp; omega)]
        exact getD_append_left _ _ _ _ hj
      · obtain ⟨hp, hl⟩ := expandDirsS_preserve gs (store ++ [store.getD ref default]) ref
        rw [ih _ _ _ _ _ j (by simp at hl ⊢; omega)]
        rw [hp j (by simp; omega)]
        exact getD_append_left _ _ _ _ hj

/-- The store-passing bfs loop preserves every pre-existing store cell. -/
theorem bfsLoopS_preserve (gs : GameS) :
    ∀ (fuel : Nat) (queue : List (Nat × List Nat)) (visited : List KeyT) (nv : Nat)
      (trace : List Nat) (store : List GameState),
      ∀ j, j < store.length →
        (bfsLoopS gs fuel queue visited nv trace store).1.getD j default =
          store.getD j default := by
  intro fuel
  induction fuel with
  | zero => intro queue visited nv trace store j hj; rfl
  | succ n ih =>
    intro queue visited nv trace store j hj
    match queue with
    | [] => rfl
    | (ref, path) :: rest =>
      simp only [bfsLoopS]
      split_ifs with h1 h2
      · exact getD_append_left _ _ _ _ hj
      · rw [ih rest visited (nv + 1) (trace ++ [store.length]) (store ++ [store.getD ref default]) j (by simp; omega)]
        exact getD_append_left _ _ _ _ hj
      · obtain ⟨hp, hl⟩ := expandDirsS_preserve gs (store ++ [store.getD ref default]) ref
        rw [ih _ _ _ _ _ j (by simp at hl ⊢; omega)]
        rw [hp j (by simp; omega)]
        exact getD_append_left _ _ _ _ hj

/-- The store-passing ucs loop preserves every pre-existing store cell. -/
theorem ucsLoopS_preserve (gs : GameS) :
    ∀ (fuel : Nat) (pq : List (Nat × Nat × List Nat)) (visited : List KeyT) (nv : Nat)
      (trace : List Nat) (store : List GameState),
      ∀ j, j < store.length →
        (ucsLoopS gs fuel pq visited nv trace store).1.getD j default =
          store.getD j default := by
  intro fuel
  induction fuel with
  | zero => intro pq visited nv trace store j hj; rfl
  | succ n ih =>
    intro pq visited nv trace store j hj
    simp only [ucsLoopS]
    rcases hpop : heappop (entryLtS store) pq with _ | ⟨⟨cost, ref, path⟩, rest⟩
    · rfl
    · simp only
      split_ifs with h1 h2
      · exact getD_append_left _ _ _ _ hj
      · rw [ih rest visited (nv + 1) (trace ++ [store.length]) (store ++ [store.getD ref default]) j (by simp; omega)]
        exact getD_append_left _ _ _ _ hj
      · obtain ⟨hp, hl⟩ := expandDirsS_preserve gs (store ++ [store.getD ref default]) ref
        rw [ih _ _ _ _ _ j (by simp at hl ⊢; omega)]
        rw [hp j (by simp; omega)]
        exact getD_append_left _ _ _ _ hj

/-- Claim C9: in the store model of Python's object heap, running any
of the three searches leaves the game's stored state untouched — the
cell `store[gs.stateRef]` (that is, `self.state`: its player positions
and reached flags) holds the same snapshot after the call as before,
because every search copies the initial state into a fresh cell and
`simulate_move` writes only to its freshly allocated working copy. -/
theorem c9_frame (gs : GameS) (fuel : Nat) (store : List GameState)
    (h : gs.stateRef < store.length) :
    (dfsS gs fuel store).1.getD gs.stateRef default = store.getD gs.stateRef default ∧
    (bfsS gs fuel store).1.getD gs.stateRef default = store.getD gs.stateRef default ∧
    (ucsS gs fuel store).1.getD gs.stateRef default = store.getD gs.stateRef default := by
  refine ⟨?_, ?_, ?_⟩
  · unfold dfsS
    rw [dfsLoopS_preserve gs fuel _ _ _ _ _ gs.stateRef (by simp; omega)]
    exact getD_append_left _ _ _ _ h
  · unfold bfsS
    rw [bfsLoopS_preserve gs fuel _ _ _ _ _ gs.stateRef (by simp; omega)]
    exact getD_append_left _ _ _ _ h
  · unfold ucsS
    rw [ucsLoopS_preserve gs fuel _ _ _ _ _ gs.stateRef (by simp; omega)]
    exact getD_append_left _ _ _ _ h

/-- Witness for C9 on Scenario A: with the stored state in cell 0, a
5-fuel run of each search leaves cell 0 unchanged. -/
theorem c9_witness :
    (0 : Nat) < ([stateA0] : List GameState).length ∧
    (dfsS ⟨3, 3, 0⟩ 5 [stateA0]).1.getD 0 default = stateA0 ∧
    (bfsS ⟨3, 3, 0⟩ 5 [stateA0]).1.getD 0 default = stateA0 ∧
    (ucsS ⟨3, 3, 0⟩ 5 [stateA0]).1.getD 0 default = stateA0 := by
  obtain ⟨h1, h2, h3⟩ := c9_frame ⟨3, 3, 0⟩ 5 [stateA0] (by decide)
  exact ⟨by decide, h1, h2, h3⟩

section HeapInvariant

variable {α : Type} [Inhabited α] (lt : α → α → Bool)

/-- In a heap with the shape invariant, no element compares strictly
below the root. -/
theorem heapInv_root_min
    (hirr : ∀ a, lt a a = false)
    (hnt : ∀ a b c, lt a b = false → lt b c = false → lt a c = false)
    (h : List α) (hinv : HeapInv lt h) :
    ∀ j, j < h.length → lt (h.getD j default) (h.getD 0 default) = false := by
  intro j
  induction j using Nat.strong_induction_on with
  | _ j ih =>
    intro hj
    rcases Nat.eq_zero_or_pos j with h0 | h0
    · subst h0
      exact hirr _
    · have hpar := hinv j h0 hj
      have := ih ((j - 1) / 2) (by omega) (by omega)
      exact hnt _ _ _ hpar this

/-- `_siftdown` from startpos 0 restores the heap invariant, given the
invariant holds everywhere except along the hole at `pos` (condition A)
and the children of the hole do not sort below the hole's grandparent
(condition C). -/
theorem heapInv_siftdownAux
    (hasym : ∀ a b, lt a b = true → lt b a = false)
    (htr : ∀ a b c, lt a b = true → lt b c = true → lt a c = true)
    (hnt : ∀ a b c, lt a b = false → lt b c = false → lt a c = false)
    (newitem : α) :
    ∀ (fuel : Nat) (h : List α) (pos : Nat), pos < h.length → pos < fuel →
      (∀ j, 0 < j → j < h.length → j ≠ pos →
        lt ((h.set pos newitem).getD j default)
          ((h.set pos newitem).getD ((j - 1) / 2) default) = false) →
      (0 < pos → ∀ j, 0 < j → j < h.length → (j - 1) / 2 = pos →
        lt ((h.set pos newitem).getD j default)
          ((h.set pos newitem).getD ((pos - 1) / 2) default) = false) →
      HeapInv lt (siftdownAux lt newitem fuel h 0 pos) := by
  intro fuel
  induction fuel with
  | zero => intro h pos _ hf; omega
  | succ n ih =>
    intro h pos hlen hf HA HC
    simp only [siftdownAux]
    by_cases hpos : 0 < pos
    · rw [if_pos hpos]
      set q := (pos - 1) / 2 with hq
      have hqlt : q < pos := by omega
      have hKq : (h.set pos newitem).getD q default = h.getD q default :=
        getD_set_neq _ _ _ _ _ (by omega)
      by_cases hlt : lt newitem (h.getD q default) = true
      · rw [if_pos hlt]
        -- recurse on the swapped heap
        apply ih (h.set pos (h.getD q default)) q (by simpa using (by omega : q < h.length))
          (by omega)
        · -- condition A for the new hole q
          intro j hj0 hjlen hjq
          rw [List.length_set] at hjlen
          have hKset : ∀ x, x ≠ pos → x ≠ q →
              ((h.set pos (h.getD q default)).set q newitem).getD x default =
                (h.set pos newitem).getD x default := by
            intro x hx1 hx2
            rw [getD_set_neq _ _ _ _ _ (Ne.symm hx2), getD_set_neq _ _ _ _ _ (Ne.symm hx1),
              getD_set_neq _ _ _ _ _ (Ne.symm hx1)]
          have hKpos : ((h.set pos (h.getD q default)).set q newitem).getD pos default =
              h.getD q default := by
            rw [getD_set_neq _ _ _ _ _ (by omega), getD_set_self _ _ _ _ hlen]
          have hKq' : ((h.set pos (h.getD q default)).set q newitem).getD q default =
              newitem := by
            rw [getD_set_self _ _ _ _ (by simpa using (by omega : q < h.length))]
          by_cases hjpos : j = pos
          · subst hjpos
            rw [hKpos, (by omega : (j - 1) / 2 = q), hKq']
            exact hasym _ _ hlt
          · by_cases hpj : (j - 1) / 2 = pos
            · rw [hKset j hjpos hjq, hpj, hKpos]
              have := HC hpos j hj0 hjlen hpj
              rw [hKq] at this
              exact this
            · by_cases hpjq : (j - 1) / 2 = q
              · rw [hKset j hjpos hjq, hpjq, hKq']
                have hja := HA j hj0 hjlen hjpos
                rw [hpjq, hKq] at hja
                by_cases hx : lt ((h.set pos newitem).getD j default) newitem = true
                · have := htr _ _ _ hx hlt
                  rw [this] at hja
                  cases hja
                · exact Bool.not_eq_true _ ▸ hx
              · rw [hKset j hjpos hjq, hKset _ hpj hpjq]
                exact HA j hj0 hjlen hjpos
        · -- condition C for the new hole q
          intro hq0 j hj0 hjlen hpj
          rw [List.length_set] at hjlen
          have hgq : (q - 1) / 2 < q := by omega
          have hKgq : ((h.set pos (h.getD q default)).set q newitem).getD ((q - 1) / 2)
              default = (h.set pos newitem).getD ((q - 1) / 2) default := by
            rw [getD_set_neq _ _ _ _ _ (by omega), getD_set_neq _ _ _ _ _ (by omega),
              getD_set_neq _ _ _ _ _ (by omega)]
          have hAq := HA q hq0 (by omega) (by omega)
          rw [hKq] at hAq
          by_cases hjpos : j = pos
          · subst hjpos
            have hKpos : ((h.set j (h.getD q default)).set q newitem).getD j default =
                h.getD q default := by
              rw [getD_set_neq _ _ _ _ _ (by omega), getD_set_self _ _ _ _ hlen]
            rw [hKpos, hKgq]
            exact hAq
          · have hjq : j ≠ q := by omega
            have hKj : ((h.set pos (h.getD q default)).set q newitem).getD j default =
                (h.set pos newitem).getD j default := by
              rw [getD_set_neq _ _ _ _ _ (Ne.symm hjq), getD_set_neq _ _ _ _ _ (Ne.symm hjpos),
                getD_set_neq _ _ _ _ _ (Ne.symm hjpos)]
            rw [hKj, hKgq]
            have hja := HA j hj0 hjlen hjpos
            rw [hpj, hKq] at hja
            exact hnt _ _ _ hja hAq
      · rw [if_neg hlt]
        intro j hj0 hjlen
        rw [List.length_set] at hjlen
        by_cases hjpos : j = pos
        · subst hjpos
          rw [getD_set_self _ _ _ _ hlen, ← hq, hKq]
          exact Bool.not_eq_true _ ▸ hlt
        · exact HA j hj0 hjlen hjpos
    · rw [if_neg hpos]
      have hpos0 : pos = 0 := by omega
      subst hpos0
      intro j hj0 hjlen
      rw [List.length_set] at hjlen
      exact HA j hj0 hjlen (by omega)

/-- The `_siftup` walk moves the chosen smaller child into the hole
until the hole reaches a leaf: the result keeps the length, its hole
index is an in-range leaf, and all edges not touching the hole satisfy
the invariant. -/
theorem siftupAux_walk
    (hasym : ∀ a b, lt a b = true → lt b a = false) :
    ∀ (fuel : Nat) (h : List α) (pos : Nat), pos < h.length → h.length - pos ≤ fuel →
      (∀ j, 0 < j → j < h.length → j ≠ pos → (j - 1) / 2 ≠ pos →
        lt (h.getD j default) (h.getD ((j - 1) / 2) default) = false) →
      (0 < pos → ∀ j, 0 < j → j < h.length → (j - 1) / 2 = pos →
        lt (h.getD j default) (h.getD ((pos - 1) / 2) default) = false) →
      (siftupAux lt fuel h pos).2 < (siftupAux lt fuel h pos).1.length ∧
      (siftupAux lt fuel h pos).1.length = h.length ∧
      h.length ≤ 2 * (siftupAux lt fuel h pos).2 + 1 ∧
      (∀ j, 0 < j → j < h.length → j ≠ (siftupAux lt fuel h pos).2 →
        (j - 1) / 2 ≠ (siftupAux lt fuel h pos).2 →
        lt ((siftupAux lt fuel h pos).1.getD j default)
          ((siftupAux lt fuel h pos).1.getD ((j - 1) / 2) default) = false) := by
  intro fuel
  induction fuel with
  | zero => intro h pos hlen hf; omega
  | succ n ih =>
    intro h pos hlen hf W1 W2
    simp only [siftupAux]
    by_cases hch : 2 * pos + 1 < h.length
    · rw [if_pos hch]
      set cp := if 2 * pos + 1 + 1 < h.length ∧
          lt (h.getD (2 * pos + 1) default) (h.getD (2 * pos + 1 + 1) default) = false
        then 2 * pos + 1 + 1 else 2 * pos + 1 with hcp
      have hcplt : cp < h.length := by
        rw [hcp]; split
        · omega
        · exact hch
      have hcppos : pos < cp := by rw [hcp]; split <;> omega
      have hcppar : (cp - 1) / 2 = pos := by rw [hcp]; split <;> omega
      have hchosen : ∀ o, 0 < o → o < h.length → (o - 1) / 2 = pos → o ≠ cp →
          lt (h.getD o default) (h.getD cp default) = false := by
        intro o ho0 holen hop hone
        have homem : o = 2 * pos + 1 ∨ o = 2 * pos + 1 + 1 := by omega
        by_cases hcond : 2 * pos + 1 + 1 < h.length ∧
            lt (h.getD (2 * pos + 1) default) (h.getD (2 * pos + 1 + 1) default) = false
        · have hcpv : cp = 2 * pos + 1 + 1 := by rw [hcp, if_pos hcond]
          have ho : o = 2 * pos + 1 := by omega
          rw [hcpv, ho]
          exact hcond.2
        · have hcpv : cp = 2 * pos + 1 := by rw [hcp, if_neg hcond]
          have ho : o = 2 * pos + 1 + 1 := by omega
          have hrlt : 2 * pos + 1 + 1 < h.length := by omega
          have hb : lt (h.getD (2 * pos + 1) default) (h.getD (2 * pos + 1 + 1) default)
              = true := by
            rcases Bool.eq_false_or_eq_true
              (lt (h.getD (2 * pos + 1) default) (h.getD (2 * pos + 1 + 1) default)) with
              hb | hb
            · exact hb
            · exact absurd ⟨hrlt, hb⟩ hcond
          rw [hcpv, ho]
          exact hasym _ _ hb
      have hset1 : ∀ x, x ≠ pos →
          (h.set pos (h.getD cp default)).getD x default = h.getD x default := by
        intro x hx
        exact getD_set_neq _ _ _ _ _ (Ne.symm hx)
      have hsetpos : (h.set pos (h.getD cp default)).getD pos default =
          h.getD cp default := getD_set_self _ _ _ _ hlen
      have W1' : ∀ j, 0 < j → j < (h.set pos (h.getD cp default)).length → j ≠ cp →
          (j - 1) / 2 ≠ cp →
          lt ((h.set pos (h.getD cp default)).getD j default)
            ((h.set pos (h.getD cp default)).getD ((j - 1) / 2) default) = false := by
        intro j hj0 hjlen hjcp hpjcp
        rw [List.length_set] at hjlen
        by_cases hjpos : j = pos
        · subst hjpos
          have hpos0 : 0 < j := hj0
          rw [hsetpos, hset1 _ (by omega)]
          have := W2 hpos0 cp (by omega) hcplt hcppar
          exact this
        · by_cases hpjpos : (j - 1) / 2 = pos
          · rw [hset1 _ hjpos, hpjpos, hsetpos]
            exact hchosen j hj0 hjlen hpjpos hjcp
          · rw [hset1 _ hjpos, hset1 _ hpjpos]
            exact W1 j hj0 hjlen hjpos hpjpos
      have W2' : 0 < cp → ∀ j, 0 < j → j < (h.set pos (h.getD cp default)).length →
          (j - 1) / 2 = cp →
          lt ((h.set pos (h.getD cp default)).getD j default)
            ((h.set pos (h.getD cp default)).getD ((cp - 1) / 2) default) = false := by
        intro _ j hj0 hjlen hpj
        rw [List.length_set] at hjlen
        have hjne : j ≠ pos := by omega
        rw [hset1 _ hjne, hcppar, hsetpos]
        have := W1 j hj0 hjlen (by omega) (by omega)
        rw [hpj] at this
        exact this
      obtain ⟨c1, c2, c3, c4⟩ := ih (h.set pos (h.getD cp default)) cp
        (by simpa using hcplt) (by rw [List.length_set]; omega) W1' W2'
      rw [List.length_set] at c2 c3
      exact ⟨c1, by rw [c2], by omega, fun j hj0 hjl => c4 j hj0 (by simpa using hjl)⟩
    · rw [if_neg hch]
      exact ⟨hlen, rfl, by omega, fun j hj0 hjl hjp hpjp => W1 j hj0 hjl hjp hpjp⟩

/-- `_siftup` at the root restores the heap invariant when only the
root edges may be violated. -/
theorem heapInv_siftup0
    (hasym : ∀ a b, lt a b = true → lt b a = false)
    (htr : ∀ a b c, lt a b = true → lt b c = true → lt a c = true)
    (hnt : ∀ a b c, lt a b = false → lt b c = false → lt a c = false)
    (h : List α) (h0 : 0 < h.length)
    (W1 : ∀ j, 0 < j → j < h.length → (j - 1) / 2 ≠ 0 →
      lt (h.getD j default) (h.getD ((j - 1) / 2) default) = false) :
    HeapInv lt (siftup lt h 0) := by
  simp only [siftup]
  obtain ⟨c1, c2, c3, c4⟩ := siftupAux_walk lt hasym h.length h 0 h0 (by omega)
    (fun j hj0 hjl hjp hpj => W1 j hj0 hjl hpj)
    (fun hcon => absurd hcon (lt_irrefl 0))
  apply heapInv_siftdownAux lt hasym htr hnt _ _ _ _ c1 (by omega)
  · intro j hj0 hjlen hjp
    have hjl : j < h.length := by rw [← c2]; exact hjlen
    have hpjne : (j - 1) / 2 ≠ (siftupAux lt h.length h 0).2 := by omega
    rw [getD_set_neq _ _ _ _ _ (Ne.symm hjp), getD_set_neq _ _ _ _ _ (Ne.symm hpjne)]
    exact c4 j hj0 hjl hjp hpjne
  · intro hpos j hj0 hjlen hpj
    rw [c2] at hjlen
    omega

/-- `heappush` preserves the heap invariant. -/
theorem heapInv_heappush
    (hasym : ∀ a b, lt a b = true → lt b a = false)
    (htr : ∀ a b c, lt a b = true → lt b c = true → lt a c = true)
    (hnt : ∀ a b c, lt a b = false → lt b c = false → lt a c = false)
    (h : List α) (e : α) (hinv : HeapInv lt h) :
    HeapInv lt (heappush lt h e) := by
  unfold heappush
  apply heapInv_siftdownAux lt hasym htr hnt e (h.length + 1) (h ++ [e]) h.length
    (by simp) (by omega)
  · intro j hj0 hjlen hjp
    rw [List.length_append, List.length_cons, List.length_nil] at hjlen
    have hjlt : j < h.length := by omega
    have hplt : (j - 1) / 2 < h.length := by omega
    rw [getD_set_neq _ _ _ _ _ (by omega), getD_set_neq _ _ _ _ _ (by omega),
      getD_append_left _ _ _ _ hjlt, getD_append_left _ _ _ _ hplt]
    exact hinv j hj0 hjlt
  · intro hpos j hj0 hjlen hpj
    rw [List.length_append, List.length_cons, List.length_nil] at hjlen
    omega

/-- `heappop` preserves the heap invariant. -/
theorem heapInv_heappop
    (hasym : ∀ a b, lt a b = true → lt b a = false)
    (htr : ∀ a b c, lt a b = true → lt b c = true → lt a c = true)
    (hnt : ∀ a b c, lt a b = false → lt b c = false → lt a c = false)
    (h : List α) (x : α) (rest : List α)
    (hinv : HeapInv lt h) (hpop : heappop lt h = some (x, rest)) :
    HeapInv lt rest := by
  unfold heappop at hpop
  by_cases hemp : h.isEmpty
  · rw [if_pos hemp] at hpop
    cases hpop
  · rw [if_neg hemp] at hpop
    simp only [] at hpop
    by_cases hre : h.dropLast.isEmpty
    · rw [if_pos hre] at hpop
      cases hpop
      intro j hj0 hjlen
      simp at hjlen
    · rw [if_neg hre] at hpop
      cases hpop
      have hlen2 : 2 ≤ h.length := by
        rcases h with _ | ⟨a, t⟩
        · cases hemp rfl
        · rcases t with _ | ⟨b, u⟩
          · cases hre rfl
          · simp
      apply heapInv_siftup0 lt hasym htr hnt
      · rw [List.length_set, List.length_dropLast]
        omega
      · intro j hj0 hjlen hpj
        rw [List.length_set, List.length_dropLast] at hjlen
        rw [getD_set_neq _ _ _ _ _ (by omega), getD_set_neq _ _ _ _ _ (by omega),
          getD_dropLast _ _ _ (by omega), getD_dropLast _ _ _ (by omega)]
        exact hinv j hj0 (by omega)

/-- `heappop` on a nonempty heap returns the root. -/
theorem heappop_root (h : List α) (x : α) (rest : List α)
    (hpop : heappop lt h = some (x, rest)) :
    x = h.getD 0 default := by
  unfold heappop at hpop
  by_cases hemp : h.isEmpty
  · rw [if_pos hemp] at hpop
    cases hpop
  · rw [if_neg hemp] at hpop
    simp only [] at hpop
    by_cases hre : h.dropLast.isEmpty
    · rw [if_pos hre] at hpop
      cases hpop
      have hone : h.length = 1 := by
        rcases h with _ | ⟨a, t⟩
        · cases hemp rfl
        · rcases t with _ | ⟨b, u⟩
          · rfl
          · simp [List.dropLast] at hre
      obtain ⟨a, ha⟩ := List.length_eq_one.1 hone
      subst ha
      rfl
    · rw [if_neg hre] at hpop
      cases hpop
      have hlen2 : 2 ≤ h.length := by
        rcases h with _ | ⟨a, t⟩
        · cases hemp rfl
        · rcases t with _ | ⟨b, u⟩
          · cases hre rfl
          · simp
      rw [getD_dropLast _ _ _ (by omega)]

end HeapInvariant

theorem entryLt_irrefl (a : UEntry) : entryLt a a = false := by
  simp [entryLt]

theorem entryLt_asym (a b : UEntry) (h : entryLt a b = true) : entryLt b a = false := by
  simp only [entryLt, Bool.or_eq_true, Bool.and_eq_true, decide_eq_true_eq] at h
  simp only [entryLt, Bool.or_eq_false_iff, Bool.and_eq_false_iff,
    decide_eq_false_iff_not]
  omega

theorem entryLt_trans (a b c : UEntry) (h1 : entryLt a b = true)
    (h2 : entryLt b c = true) : entryLt a c = true := by
  simp only [entryLt, Bool.or_eq_true, Bool.and_eq_true, decide_eq_true_eq] at h1 h2 ⊢
  omega

theorem entryLt_negtrans (a b c : UEntry) (h1 : entryLt a b = false)
    (h2 : entryLt b c = false) : entryLt a c = false := by
  simp only [entryLt, Bool.or_eq_false_iff, Bool.and_eq_false_iff,
    decide_eq_false_iff_not] at h1 h2 ⊢
  omega

/-- Claim C5: the uniform-cost frontier is Python's `heapq` binary heap
under the `(cost, reached-count)` order. A one-entry heap satisfies the
heap invariant, `heappush` and `heappop` preserve it (so every frontier
`ucs` ever builds satisfies it), and under it `heappop` never dequeues
an entry while the heap still holds an equal-cost entry whose state has
strictly fewer reached flags: the less-progressed entry is dequeued
first. -/
theorem c5_ucs_tiebreak :
    (∀ e : UEntry, HeapInv entryLt [e]) ∧
    (∀ (h : List UEntry) (e : UEntry), HeapInv entryLt h →
      HeapInv entryLt (heappush entryLt h e)) ∧
    (∀ (h : List UEntry) (x : UEntry) (rest : List UEntry), HeapInv entryLt h →
      heappop entryLt h = some (x, rest) → HeapInv entryLt rest) ∧
    (∀ (h : List UEntry) (e1 e2 x : UEntry) (rest : List UEntry), HeapInv entryLt h →
      e1 ∈ h → e2 ∈ h → e1.1 = e2.1 →
      countTrue e1.2.1.reached_goal < countTrue e2.2.1.reached_goal →
      heappop entryLt h = some (x, rest) → x ≠ e2) := by
  refine ⟨?_, ?_, ?_, ?_⟩
  · intro e j hj0 hjlen
    simp at hjlen
    omega
  · intro h e hinv
    exact heapInv_heappush entryLt entryLt_asym entryLt_trans entryLt_negtrans h e hinv
  · intro h x rest hinv hpop
    exact heapInv_heappop entryLt entryLt_asym entryLt_trans entryLt_negtrans
      h x rest hinv hpop
  · intro h e1 e2 x rest hinv h1 h2 hc hcnt hpop
    intro hcon
    have hroot := heappop_root entryLt h x rest hpop
    obtain ⟨⟨j, hj⟩, hget⟩ := List.mem_iff_get.1 h1
    have hmin := heapInv_root_min entryLt entryLt_irrefl entryLt_negtrans h hinv j hj
    rw [getD_eq_get _ _ _ hj, hget, ← hroot, hcon] at hmin
    have : entryLt e1 e2 = true := by
      simp only [entryLt, Bool.or_eq_true, Bool.and_eq_true, decide_eq_true_eq]
      omega
    rw [this] at hmin
    cases hmin

/-- Witness for C5: a valid two-entry heap with equal costs; the entry
with zero reached flags is popped, not the one with one reached flag. -/
theorem c5_witness :
    HeapInv entryLt [(1, stateA0, []), (1, stateAGoal, [])] ∧
    (1, stateA0, ([] : List GameState)) ∈ [(1, stateA0, []), (1, stateAGoal, [])] ∧
    (1, stateAGoal, ([] : List GameState)) ∈ [(1, stateA0, []), (1, stateAGoal, [])] ∧
    countTrue stateA0.reached_goal < countTrue stateAGoal.reached_goal ∧
    heappop entryLt [(1, stateA0, []), (1, stateAGoal, [])] =
      some ((1, stateA0, []), [(1, stateAGoal, [])]) ∧
    ((1, stateA0, ([] : List GameState)) : UEntry) ≠ (1, stateAGoal, []) := by
  refine ⟨by decide, by decide, by decide, by decide, by decide, ?_⟩
  exact c5_ucs_tiebreak.2.2.2 [(1, stateA0, []), (1, stateAGoal, [])]
    (1, stateA0, []) (1, stateAGoal, []) (1, stateA0, []) [(1, stateAGoal, [])]
    (by decide) (by decide) (by decide) rfl (by decide) (by decide)

/-- A cell accepted by `is_valid_move` lies in the position universe. -/
theorem is_valid_mem_posU (g : Game) (r c : Int) (i : Nat)
    (h : is_valid_move g r c i = true) : (r, c) ∈ posU g := by
  obtain ⟨⟨h1, h2, h3, h4⟩, _⟩ := is_valid_move_ok g r c i h
  apply Finset.mem_union_left
  rw [Finset.mem_product]
  constructor <;> rw [Finset.mem_Icc] <;> constructor <;> simp <;> omega

/-- One `simStep` preserves the good-state predicate. -/
theorem simStep_good (g : Game) (dr dc : Int) (cloned : GameState) (k : Nat)
    (h : GoodSt g cloned) : GoodSt g (simStep g dr dc cloned k).1 := by
  obtain ⟨hp, hr, hpos⟩ := h
  rw [simStep_shape]
  split_ifs with h1 h2
  · exact ⟨hp, hr, hpos⟩
  · unfold stepFlagged
    split_ifs
    · exact ⟨hp, by simpa using hr, hpos⟩
    · exact ⟨hp, hr, hpos⟩
  · have hflp : (stepFlagged g dr dc cloned k).players = cloned.players := by
      unfold stepFlagged
      split_ifs <;> rfl
    have hflr : (stepFlagged g dr dc cloned k).reached_goal.length =
        cloned.reached_goal.length := by
      unfold stepFlagged
      split_ifs <;> simp
    refine ⟨?_, ?_, ?_⟩
    · show ((stepFlagged g dr dc cloned k).players.set k _).length = _
      rw [List.length_set, hflp]
      exact hp
    · show (stepFlagged g dr dc cloned k).reached_goal.length = _
      rw [hflr]
      exact hr
    · intro p hmem
      have hsm : (stepMoved g dr dc cloned k).players = cloned.players.set k
          (slideAux g k dr dc (cloned.goals.getD k (0, 0)) (slideFuel g)
            (cloned.players.getD k (0, 0))).1 := by
        show (stepFlagged g dr dc cloned k).players.set k _ = _
        rw [hflp]
      have hmem' : p ∈ cloned.players.set k
          (slideAux g k dr dc (cloned.goals.getD k (0, 0)) (slideFuel g)
            (cloned.players.getD k (0, 0))).1 := by
        rw [← hsm]
        exact hmem
      rcases mem_of_mem_set _ _ _ _ hmem' with h' | h'
      · rcases slideAux_result g k dr dc (cloned.goals.getD k (0, 0)) (slideFuel g)
          (cloned.players.getD k (0, 0)) with hr' | hr'
        · exact absurd hr' h2
        · rw [h']
          have := is_valid_mem_posU g _ _ k hr'
          simpa using this
      · exact hpos p h'

/-- Fold form of good-state preservation. -/
theorem simGo_good (g : Game) (dr dc : Int) :
    ∀ (fuel k : Nat) (cloned : GameState), GoodSt g cloned →
      ∀ s' ∈ simGo g dr dc fuel k cloned, GoodSt g s' := by
  intro fuel
  induction fuel with
  | zero => intro k cloned _ s' hs'; simp [simGo] at hs'
  | succ n ih =>
    intro k cloned hok s' hs'
    simp only [simGo] at hs'
    by_cases hguard : k < cloned.players.length
    · rw [if_pos hguard] at hs'
      have hok' := simStep_good g dr dc cloned k hok
      rcases hstep : simStep g dr dc cloned k with ⟨c', out⟩
      rw [hstep] at hs' hok'
      rcases out with _ | s
      · exact ih (k + 1) c' hok' s' hs'
      · rcases List.mem_cons.1 hs' with h | h
        · have := simStep_some_eq g dr dc cloned k c' s hstep
          subst this
          exact h ▸ hok'
        · exact ih (k + 1) c' hok' s' h
    · rw [if_neg hguard] at hs'
      simp at hs'

/-- Every successor produced while expanding a good state is good. -/
theorem expandDirs_good (g : Game) (st : GameState) (h : GoodSt g st) :
    ∀ s' ∈ expandDirs g st, GoodSt g s' := by
  intro s' hs'
  simp only [expandDirs, List.mem_flatMap] at hs'
  obtain ⟨d, _, hmem⟩ := hs'
  exact simGo_good g d.1 d.2 st.players.length 0 st h s' hmem

/-- The player loop emits at most one successor per iteration. -/
theorem simGo_length_le (g : Game) (dr dc : Int) :
    ∀ (fuel k : Nat) (cloned : GameState),
      (simGo g dr dc fuel k cloned).length ≤ fuel := by
  intro fuel
  induction fuel with
  | zero => intro k cloned; simp [simGo]
  | succ n ih =>
    intro k cloned
    simp only [simGo]
    by_cases hguard : k < cloned.players.length
    · rw [if_pos hguard]
      rcases simStep g dr dc cloned k with ⟨c', out⟩
      rcases out with _ | s
      · simp only
        exact le_trans (ih (k + 1) c') (by omega)
      · simp only [List.length_cons]
        exact Nat.succ_le_succ (ih (k + 1) c')
    · rw [if_neg hguard]
      simp

/-- Expanding a good state yields at most `4 * players` successors. -/
theorem expandDirs_length_le (g : Game) (st : GameState) (h : GoodSt g st) :
    (expandDirs g st).length ≤ 4 * g.state.players.length := by
  have hlen : ∀ dr dc : Int, (simulate_move g st dr dc).length ≤ g.state.players.length := by
    intro dr dc
    have h2 : (simulate_move g st dr dc).length ≤ st.players.length :=
      simGo_length_le g dr dc st.players.length 0 st
    rw [h.1] at h2
    exact h2
  simp only [expandDirs, dirList, List.flatMap_cons, List.flatMap_nil, List.append_nil,
    List.length_append]
  have a1 := hlen (-1) 0
  have a2 := hlen 1 0
  have a3 := hlen 0 (-1)
  have a4 := hlen 0 1
  omega

/-- The stored state is good. -/
theorem goodSt_initial (g : Game) : GoodSt g g.state :=
  ⟨rfl, rfl, fun _ hp => Finset.mem_union_right _ (List.mem_toFinset.2 hp)⟩

/-- The canonical key of a good state is a good key. -/
theorem goodKey_of_goodSt (g : Game) (st : GameState) (h : GoodSt g st) :
    GoodKey g (get_state st) :=
  ⟨h.1, h.2.1, h.2.2⟩

/-- There are at most `keyBound` good keys. -/
theorem goodKeys_card_le (g : Game) : (goodKeys g).card ≤ keyBound g := by
  unfold goodKeys keyBound
  refine le_trans Finset.card_image_le ?_
  rw [Finset.card_univ, Fintype.card_prod, Fintype.card_fun, Fintype.card_fun]
  simp [Fintype.card_coe]

/-- Every good key is the decoding of a pair of tuples. -/
theorem goodKey_mem_goodKeys (g : Game) (k : KeyT) (h : GoodKey g k) :
    k ∈ goodKeys g := by
  obtain ⟨h1, h2, h3⟩ := h
  refine Finset.mem_image.2 ⟨⟨fun j => ⟨k.1.get ⟨j.1, by omega⟩, ?_⟩,
    fun j => k.2.get ⟨j.1, by omega⟩⟩, Finset.mem_univ _, ?_⟩
  · exact h3 _ (k.1.get_mem _ _)
  · unfold keyDecode
    refine Prod.ext_iff.mpr ⟨?_, ?_⟩
    · apply List.ext_get
      · simp
        omega
      · intro n hn1 hn2
        simp [List.get_ofFn]
    · apply List.ext_get
      · simp
        omega
      · intro n hn1 hn2
        simp [List.get_ofFn]

/-- A duplicate-free list of good keys has at most `keyBound` entries. -/
theorem visited_length_le (g : Game) (visited : List KeyT)
    (hnd : visited.Nodup) (hgood : ∀ k ∈ visited, GoodKey g k) :
    visited.length ≤ keyBound g := by
  have h1 : visited.toFinset ⊆ goodKeys g := by
    intro k hk
    exact goodKey_mem_goodKeys g k (hgood k (List.mem_toFinset.1 hk))
  have h2 := Finset.card_le_card h1
  rw [List.toFinset_card_of_nodup hnd] at h2
  exact le_trans h2 (goodKeys_card_le g)

section HeapSize

variable {α : Type} [Inhabited α] (lt : α → α → Bool)

theorem siftup_length (heap : List α) (pos : Nat) :
    (siftup lt heap pos).length = heap.length := by
  unfold siftup
  rw [siftdownAux_length, siftupAux_length]

theorem mem_siftup (heap : List α) (pos : Nat) (hpos : pos < heap.length) :
    ∀ x ∈ siftup lt heap pos, x ∈ heap := by
  intro x hx
  simp only [siftup] at hx
  have hp1 := siftupAux_pos_lt lt heap.length heap pos hpos
  rcases mem_siftdownAux lt _ _ _ _ _ hp1 x hx with h | h
  · rw [h]
    exact getD_mem _ _ _ hpos
  · exact mem_siftupAux lt heap.length heap pos hpos x h

theorem heappop_none_iff (heap : List α) :
    heappop lt heap = none ↔ heap = [] := by
  unfold heappop
  by_cases hemp : heap.isEmpty
  · rw [if_pos hemp]
    simp [List.isEmpty_iff.1 hemp]
  · rw [if_neg hemp]
    simp only []
    constructor
    · intro h
      split_ifs at h
    · intro h
      exact absurd (by rw [h]; rfl) hemp

theorem heappop_length (heap : List α) (x : α) (rest : List α)
    (hpop : heappop lt heap = some (x, rest)) :
    rest.length + 1 = heap.length := by
  unfold heappop at hpop
  by_cases hemp : heap.isEmpty
  · rw [if_pos hemp] at hpop
    cases hpop
  · rw [if_neg hemp] at hpop
    simp only [] at hpop
    have hne : heap ≠ [] := fun hc => hemp (by rw [hc]; rfl)
    have hlen : 0 < heap.length := List.length_pos.2 hne
    by_cases hre : heap.dropLast.isEmpty
    · rw [if_pos hre] at hpop
      cases hpop
      have := List.isEmpty_iff.1 hre
      have hdl : heap.dropLast.length = 0 := by rw [this]; rfl
      rw [List.length_dropLast] at hdl
      simp
      omega
    · rw [if_neg hre] at hpop
      cases hpop
      rw [siftup_length, List.length_set, List.length_dropLast]
      omega

theorem heappop_mem (heap : List α) (x : α) (rest : List α)
    (hpop : heappop lt heap = some (x, rest)) :
    x ∈ heap ∧ ∀ y ∈ rest, y ∈ heap := by
  unfold heappop at hpop
  by_cases hemp : heap.isEmpty
  · rw [if_pos hemp] at hpop
    cases hpop
  · rw [if_neg hemp] at hpop
    simp only [] at hpop
    have hne : heap ≠ [] := fun hc => hemp (by rw [hc]; rfl)
    have hlen : 0 < heap.length := List.length_pos.2 hne
    by_cases hre : heap.dropLast.isEmpty
    · rw [if_pos hre] at hpop
      cases hpop
      exact ⟨getLastD_mem _ _ hne, by simp⟩
    · rw [if_neg hre] at hpop
      cases hpop
      have hrne : heap.dropLast ≠ [] := fun hc => hre (by rw [hc]; rfl)
      have hrlen : 0 < heap.dropLast.length := List.length_pos.2 hrne
      have hlen2 : 2 ≤ heap.length := by
        rw [List.length_dropLast] at hrlen
        omega
      constructor
      · rw [getD_dropLast _ _ _ (by omega)]
        exact getD_mem _ _ _ (by omega)
      · intro y hy
        have := mem_siftup lt (heap.dropLast.set 0 (heap.getLastD default)) 0
          (by rw [List.length_set]; omega) y hy
        rcases mem_of_mem_set _ _ _ _ this with h | h
        · rw [h]
          exact getLastD_mem _ _ hne
        · exact List.dropLast_subset _ h

end HeapSize

/-- The `ucs` push phase adds at most one entry per generated
successor. -/
theorem ucsPushes_length_le (g : Game) (st : GameState) (path : List GameState)
    (cost : Nat) (visited : List KeyT) (rest : List UEntry) :
    (ucsPushes g st path cost visited rest).length ≤
      rest.length + (expandDirs g st).length := by
  unfold ucsPushes
  generalize expandDirs g st = l
  induction l generalizing rest with
  | nil => simp
  | cons hd tl ih =>
    simp only [List.foldl_cons, List.length_cons]
    split_ifs with h
    · exact le_trans (ih rest) (by omega)
    · refine le_trans (ih _) ?_
      rw [heappush_length]
      omega

/-- Every entry of the heap after a `ucs` push phase is an old entry or
one of the freshly generated successor entries. -/
theorem ucsPushes_entries (g : Game) (st : GameState) (path : List GameState)
    (cost : Nat) (visited : List KeyT) (rest : List UEntry) :
    ∀ e ∈ ucsPushes g st path cost visited rest,
      e ∈ rest ∨ ∃ s ∈ expandDirs g st, e = (cost + 1, s, path ++ [st]) := by
  unfold ucsPushes
  have hgen : ∀ (l : List GameState) (rest : List UEntry),
      ∀ e ∈ l.foldl (fun h s => if get_state s ∈ visited then h
        else heappush entryLt h (cost + 1, s, path ++ [st])) rest,
        e ∈ rest ∨ ∃ s ∈ l, e = (cost + 1, s, path ++ [st]) := by
    intro l
    induction l with
    | nil => intro rest e he; exact Or.inl (by simpa using he)
    | cons hd tl ih =>
      intro rest e he
      simp only [List.foldl_cons] at he
      split_ifs at he with h
      · rcases ih rest e he with h' | ⟨s, hs, he'⟩
        · exact Or.inl h'
        · exact Or.inr ⟨s, List.mem_cons_of_mem _ hs, he'⟩
      · rcases ih _ e he with h' | ⟨s, hs, he'⟩
        · rcases mem_heappush _ _ _ _ h' with h'' | h''
          · exact Or.inr ⟨hd, List.mem_cons_self _ _, h''⟩
          · exact Or.inl h''
        · exact Or.inr ⟨s, List.mem_cons_of_mem _ hs, he'⟩
  exact hgen (expandDirs g st) rest

/-- Termination and result shape of the dfs loop along the decreasing
measure (unvisited good keys, weighted by the push capacity, plus the
frontier size). -/
theorem dfsLoop_term (g : Game) :
    ∀ (fuel : Nat) (stack : List (GameState × List GameState)) (visited : List KeyT)
      (nv : Nat) (trace : List GameState),
      (∀ e ∈ stack, GoodSt g e.1) → visited.Nodup → (∀ k ∈ visited, GoodKey g k) →
      (keyBound g - visited.length) * pushCap g + stack.length < fuel →
      ∃ res, dfsLoop g fuel stack visited nv trace = some res ∧ searchResultOk res := by
  intro fuel
  induction fuel with
  | zero => intro stack visited nv trace _ _ _ hm; omega
  | succ n ih =>
    intro stack visited nv trace hst hnd hgood hm
    match stack with
    | [] => exact ⟨(none, nv, trace), rfl, trivial⟩
    | (st, path) :: rest =>
      simp only [dfsLoop]
      by_cases hgoal : st.reached_goal.all id = true
      · rw [if_pos hgoal]
        exact ⟨(some (path ++ [st]), nv + 1, trace ++ [st]), rfl, ⟨st, by simp, hgoal⟩⟩
      · rw [if_neg hgoal]
        by_cases hv : get_state st ∈ visited
        · rw [if_pos hv]
          refine ih rest visited (nv + 1) (trace ++ [st])
            (fun e he => hst e (List.mem_cons_of_mem _ he)) hnd hgood ?_
          simp only [List.length_cons] at hm
          omega
        · rw [if_neg hv]
          have hstG : GoodSt g st := hst _ (List.mem_cons_self _ _)
          have hkey : GoodKey g (get_state st) := goodKey_of_goodSt g st hstG
          have hnd' : (get_state st :: visited).Nodup := List.nodup_cons.2 ⟨hv, hnd⟩
          have hgood' : ∀ k ∈ get_state st :: visited, GoodKey g k := by
            intro k hk
            rcases List.mem_cons.1 hk with h | h
            · exact h ▸ hkey
            · exact hgood k h
          have hlenv : (get_state st :: visited).length ≤ keyBound g :=
            visited_length_le g _ hnd' hgood'
          have hpush : (expandDirs g st).length ≤ 4 * g.state.players.length :=
            expandDirs_length_le g st hstG
          refine ih _ _ (nv + 1) (trace ++ [st]) ?_ hnd' hgood' ?_
          · intro e he
            rcases List.mem_append.1 he with h | h
            · rw [List.mem_reverse] at h
              obtain ⟨s, hs, heq⟩ := List.mem_map.1 h
              rw [← heq]
              exact expandDirs_good g st hstG s hs
            · exact hst e (List.mem_cons_of_mem _ h)
          · rw [List.length_cons] at hlenv
            have hsplit : (keyBound g - visited.length) * pushCap g =
                (keyBound g - (visited.length + 1)) * pushCap g + pushCap g := by
              rw [(by omega : keyBound g - visited.length =
                (keyBound g - (visited.length + 1)) + 1), Nat.succ_mul]
            have hnewlen :
                ((((expandDirs g st).map fun s => (s, path ++ [st])).reverse ++ rest)).length =
                (expandDirs g st).length + rest.length := by
              simp
            simp only [List.length_cons] at hm
            rw [hnewlen, List.length_cons]
            unfold pushCap at hsplit hm ⊢
            omega

/-- Termination and result shape of the bfs loop. -/
theorem bfsLoop_term (g : Game) :
    ∀ (fuel : Nat) (queue : List (GameState × List GameState)) (visited : List KeyT)
      (nv : Nat) (trace : List GameState),
      (∀ e ∈ queue, GoodSt g e.1) → visited.Nodup → (∀ k ∈ visited, GoodKey g k) →
      (keyBound g - visited.length) * pushCap g + queue.length < fuel →
      ∃ res, bfsLoop g fuel queue visited nv trace = some res ∧ searchResultOk res := by
  intro fuel
  induction fuel with
  | zero => intro queue visited nv trace _ _ _ hm; omega
  | succ n ih =>
    intro queue visited nv trace hst hnd hgood hm
    match queue with
    | [] => exact ⟨(none, nv, trace), rfl, trivial⟩
    | (st, path) :: rest =>
      simp only [bfsLoop]
      by_cases hgoal : st.reached_goal.all id = true
      · rw [if_pos hgoal]
        exact ⟨(some (path ++ [st]), nv + 1, trace ++ [st]), rfl, ⟨st, by simp, hgoal⟩⟩
      · rw [if_neg hgoal]
        by_cases hv : get_state st ∈ visited
        · rw [if_pos hv]
          refine ih rest visited (nv + 1) (trace ++ [st])
            (fun e he => hst e (List.mem_cons_of_mem _ he)) hnd hgood ?_
          simp only [List.length_cons] at hm
          omega
        · rw [if_neg hv]
          have hstG : GoodSt g st := hst _ (List.mem_cons_self _ _)
          have hkey : GoodKey g (get_state st) := goodKey_of_goodSt g st hstG
          have hnd' : (get_state st :: visited).Nodup := List.nodup_cons.2 ⟨hv, hnd⟩
          have hgood' : ∀ k ∈ get_state st :: visited, GoodKey g k := by
            intro k hk
            rcases List.mem_cons.1 hk with h | h
            · exact h ▸ hkey
            · exact hgood k h
          have hlenv : (get_state st :: visited).length ≤ keyBound g :=
            visited_length_le g _ hnd' hgood'
          have hpush : (expandDirs g st).length ≤ 4 * g.state.players.length :=
            expandDirs_length_le g st hstG
          refine ih _ _ (nv + 1) (trace ++ [st]) ?_ hnd' hgood' ?_
          · intro e he
            rcases List.mem_append.1 he with h | h
            · exact hst e (List.mem_cons_of_mem _ h)
            · obtain ⟨s, hs, heq⟩ := List.mem_map.1 h
              rw [← heq]
              exact expandDirs_good g st hstG s hs
          · rw [List.length_cons] at hlenv
            have hsplit : (keyBound g - visited.length) * pushCap g =
                (keyBound g - (visited.length + 1)) * pushCap g + pushCap g := by
              rw [(by omega : keyBound g - visited.length =
                (keyBound g - (visited.length + 1)) + 1), Nat.succ_mul]
            have hnewlen :
                (rest ++ ((expandDirs g st).map fun s => (s, path ++ [st]))).length =
                rest.length + (expandDirs g st).length := by
              simp
            simp only [List.length_cons] at hm
            rw [hnewlen, List.length_cons]
            unfold pushCap at hsplit hm ⊢
            omega

/-- Termination and result shape of the ucs loop. -/
theorem ucsLoop_term (g : Game) :
    ∀ (fuel : Nat) (pq : List UEntry) (visited : List KeyT) (nv : Nat)
      (trace : List GameState),
      (∀ e ∈ pq, GoodSt g e.2.1) → visited.Nodup → (∀ k ∈ visited, GoodKey g k) →
      (keyBound g - visited.length) * pushCap g + pq.length < fuel →
      ∃ res, ucsLoop g fuel pq visited nv trace = some res ∧ searchResultOk res := by
  intro fuel
  induction fuel with
  | zero => intro pq visited nv trace _ _ _ hm; omega
  | succ n ih =>
    intro pq visited nv trace hpq hnd hgood hm
    simp only [ucsLoop]
    rcases hpop : heappop entryLt pq with _ | ⟨⟨cost, st, path⟩, rest⟩
    · exact ⟨(none, nv, trace), rfl, trivial⟩
    · simp only
      have hlenpq := heappop_length entryLt pq _ _ hpop
      obtain ⟨hxmem, hrestmem⟩ := heappop_mem entryLt pq _ _ hpop
      have hstG : GoodSt g st := hpq _ hxmem
      have hrest_good : ∀ e ∈ rest, GoodSt g e.2.1 := fun e he => hpq e (hrestmem e he)
      by_cases hgoal : st.reached_goal.all id = true
      · rw [if_pos hgoal]
        exact ⟨(some (path ++ [st]), nv + 1, trace ++ [st]), rfl, ⟨st, by simp, hgoal⟩⟩
      · rw [if_neg hgoal]
        by_cases hv : get_state st ∈ visited
        · rw [if_pos hv]
          refine ih rest visited (nv + 1) (trace ++ [st]) hrest_good hnd hgood ?_
          omega
        · rw [if_neg hv]
          have hkey : GoodKey g (get_state st) := goodKey_of_goodSt g st hstG
          have hnd' : (get_state st :: visited).Nodup := List.nodup_cons.2 ⟨hv, hnd⟩
          have hgood' : ∀ k ∈ get_state st :: visited, GoodKey g k := by
            intro k hk
            rcases List.mem_cons.1 hk with h | h
            · exact h ▸ hkey
            · exact hgood k h
          have hlenv : (get_state st :: visited).length ≤ keyBound g :=
            visited_length_le g _ hnd' hgood'
          have hpush : (expandDirs g st).length ≤ 4 * g.state.players.length :=
            expandDirs_length_le g st hstG
          have hplen := ucsPushes_length_le g st path cost (get_state st :: visited) rest
          refine ih _ _ (nv + 1) (trace ++ [st]) ?_ hnd' hgood' ?_
          · intro e he
            rcases ucsPushes_entries g st path cost (get_state st :: visited) rest e he with
              h | ⟨s, hs, heq⟩
            · exact hrest_good e h
            · rw [heq]
              exact expandDirs_good g st hstG s hs
          · rw [List.length_cons] at hlenv
            have hsplit : (keyBound g - visited.length) * pushCap g =
                (keyBound g - (visited.length + 1)) * pushCap g + pushCap g := by
              rw [(by omega : keyBound g - visited.length =
                (keyBound g - (visited.length + 1)) + 1), Nat.succ_mul]
            rw [List.length_cons]
            unfold pushCap at hsplit hm hpush ⊢
            omega

/-- Claim C8: each of `dfs`, `bfs` and `ucs` terminates within the
computed fuel on any board, returning either a solution path whose
final snapshot has all reached flags true, or the no-solution result
once the frontier is exhausted. -/
theorem c8_termination (g : Game) :
    (∃ res, dfs g = some res ∧ searchResultOk res) ∧
    (∃ res, bfs g = some res ∧ searchResultOk res) ∧
    (∃ res, ucs g = some res ∧ searchResultOk res) := by
  have hmeasure : (keyBound g - ([] : List KeyT).length) * pushCap g + 1 < searchFuel g := by
    simp only [List.length_nil, Nat.sub_zero]
    unfold searchFuel
    have hcap : 1 ≤ pushCap g := by unfold pushCap; omega
    have := Nat.mul_le_mul_left (keyBound g) hcap
    omega
  refine ⟨?_, ?_, ?_⟩
  · apply dfsLoop_term g (searchFuel g) [(g.state, [])] [] 0 []
    · intro e he
      rw [List.mem_singleton.1 he]
      exact goodSt_initial g
    · exact List.nodup_nil
    · intro k hk
      exact absurd hk (List.not_mem_nil k)
    · simpa using hmeasure
  · apply bfsLoop_term g (searchFuel g) [(g.state, [])] [] 0 []
    · intro e he
      rw [List.mem_singleton.1 he]
      exact goodSt_initial g
    · exact List.nodup_nil
    · intro k hk
      exact absurd hk (List.not_mem_nil k)
    · simpa using hmeasure
  · apply ucsLoop_term g (searchFuel g) [(0, g.state, [])] [] 0 []
    · intro e he
      rw [List.mem_singleton.1 he]
      exact goodSt_initial g
    · exact List.nodup_nil
    · intro k hk
      exact absurd hk (List.not_mem_nil k)
    · simpa using hmeasure

/-- Claim C1, counterexample: on `gameC1` (players at (0,3) and (0,0),
sliding right), the code's validity checks consult the game's stored
state, so player 1 is blocked at (0,2) by player 0's stale position
(0,3), even though the shared working copy already shows player 0 moved
to (0,4); under the spec's sequencing rule 5 (validity against the
working copy) player 1 would advance to (0,3). -/
theorem c1_counterexample :
    simulate_move gameC1 gameC1.state 0 1 = [stateC1a, stateC1code] ∧
      simulate_move_specC1 gameC1 gameC1.state 0 1 = [stateC1a, stateC1spec] ∧
      simulate_move gameC1 gameC1.state 0 1 ≠
        simulate_move_specC1 gameC1 gameC1.state 0 1 := by
  refine ⟨rfl, rfl, ?_⟩
  decide
